import Mathlib

/-!
# Verification of the `ttc` repository's strict Top Trading Cycles solver
and its monitor/prover services

This development shallowly embeds the Rust sources:

* `ttc/src/strict.rs` — the strict-preference TTC solver
  (`Preferences`, `PreferenceGraph`, `Cycle`, `Allocation`);
* `monitor/server/src/db.rs` and `monitor/src/prover/db.rs` — the job store
  (`update_job_status`, `create_proof`);
* `monitor/server/bin/prover_server.rs` and `prover/server/src/main.rs` —
  the two `prove_impl` variants;
* `methods/guest/src/main.rs` — the zk guest program.

Rust `HashMap<V, Vec<V>>` values are embedded as insertion-ordered association
lists with distinct keys (the distinctness is carried as a hypothesis where it
matters); participants, addresses and token identifiers are embedded as values
of an arbitrary type with decidable equality (`Nat` in concrete instances).
The petgraph `DiGraph` is embedded as a list of node values (list position =
node index; `remove_node` is index-based swap-removal, as in petgraph) together
with a list of directed edges between node values.
-/

namespace TTC

variable {α : Type} [DecidableEq α]

/-- Association-list lookup, embedding `HashMap::get` for a map with distinct
keys. -/
def lookupList (prefs : List (α × List α)) (v : α) : Option (List α) :=
  (prefs.find? (fun p => decide (p.1 = v))).map Prod.snd

/-- Embeds `Preferences::preferred_item`:
`self.prefs.get(&v).and_then(|vp| vp.first().cloned()).unwrap_or(v)`. -/
def preferredItem (prefs : List (α × List α)) (v : α) : α :=
  ((lookupList prefs v).bind List.head?).getD v

/-- Embeds `Preferences::remove_prefs`: remove the entry of every chosen
vertex, then strike the chosen vertices from every remaining list. -/
def removePrefs (prefs : List (α × List α)) (chosen : List α) : List (α × List α) :=
  (prefs.filter (fun p => decide (p.1 ∉ chosen))).map
    (fun p => (p.1, p.2.filter (fun x => decide (x ∉ chosen))))

/-- Embeds `Preferences::rank`: the index of `value` in the preference list of
`participant` (`None` when the participant is not a key; the source's
`unwrap_or(usize::MAX)` for a value that is not listed is embedded as the
list length, `List.indexOf`'s out-of-list default, which compares the same
way against every in-list index). -/
def rank (prefs : List (α × List α)) (participant value : α) : Option Nat :=
  (lookupList prefs participant).map (fun l => l.indexOf value)

/-- The petgraph `DiGraph<V, ()>`: node values in index order, and directed
edges as (source value, target value) pairs.  Node values are pairwise
distinct in every reachable state, so value pairs determine edges. -/
structure TTCGraph (α : Type) where
  nodes : List α
  edges : List (α × α)
  deriving DecidableEq

/-- Embeds `PreferenceGraph::setup` (called from `PreferenceGraph::new` with
`v` = the key list and `e = v.map (x ↦ (x, preferred_item x))`): every node is
added in key order, and since both endpoints of each edge are keys, every edge
is added. -/
def setupGraph (keys : List α) (prefs : List (α × List α)) : TTCGraph α :=
  { nodes := keys, edges := keys.map (fun x => (x, preferredItem prefs x)) }

/-- Embeds `Vec::swap_remove` at the index of `v`, which is what
`petgraph::Graph::remove_node` does to the node list: the node at the last
index is moved into the removed slot. -/
def swapRemove (l : List α) (v : α) : List α :=
  match l.getLast? with
  | none => l
  | some last => (l.set (l.indexOf v) last).dropLast

/-- The targets of the edges leaving `x`. -/
def outTargets (g : TTCGraph α) (x : α) : List α :=
  (g.edges.filter (fun e => decide (e.1 = x))).map Prod.snd

/-- The target of the first edge leaving `x` (every reachable graph state has
exactly one edge per node, see `Invariant.edgesForm` below).  The `getD x`
default is never used on reachable states. -/
def edgeTarget (g : TTCGraph α) (x : α) : α :=
  ((g.edges.find? (fun e => decide (e.1 = x))).map Prod.snd).getD x

/-- The traversal inside `PreferenceGraph::find_cycle`: the petgraph
depth-first search from the start node.  Every vertex has out-degree exactly
one, so the search follows the unique out-edge from the current vertex and
stops at the first back edge, i.e. when the successor of the current vertex is
already on the path; the recorded cycle (after the source's `reverse`) is the
suffix of the path starting at that successor.  `fuel` bounds the traversal;
`fuel = node count` is always enough (`findCycleAux_some` below), which
embeds the finiteness of the graph. -/
def findCycleAux (f : α → α) : Nat → List α → α → Option (List α)
  | 0, _, _ => none
  | fuel + 1, path, cur =>
    let nxt := f cur
    let path2 := path ++ [cur]
    if nxt ∈ path2 then some (path2.dropWhile (fun y => decide (y ≠ nxt)))
    else findCycleAux f fuel path2 nxt

/-- Embeds `PreferenceGraph::find_cycle`. `none` is the `AlwaysCycles` error
(no start node, or no back edge found). -/
def findCycle (g : TTCGraph α) : Option (List α) :=
  match g.nodes.head? with
  | none => none
  | some s => findCycleAux (edgeTarget g) g.nodes.length [] s

/-- Embeds the body of the `for v in &cycle.values` loop of
`solve_preferences` for a single vertex `v`: collect the incoming edges of
`v`, add an edge from each incoming neighbor to its recomputed preferred item,
then remove the node `v` (petgraph removes all edges incident to `v` with it).
`none` embeds the two `unwrap` panics: the node-index lookup for `v` and, for
each rewired neighbor, the node-index lookup of its new preferred item. -/
def processCycleVertex (prefs : List (α × List α)) (g : TTCGraph α) (v : α) :
    Option (TTCGraph α) :=
  if v ∈ g.nodes then
    let incoming := (g.edges.filter (fun e => decide (e.2 = v))).map Prod.fst
    if incoming.all (fun n => decide (preferredItem prefs n ∈ g.nodes)) then
      some { nodes := swapRemove g.nodes v
           , edges := (g.edges ++ incoming.map (fun n => (n, preferredItem prefs n))).filter
               (fun e => decide (e.1 ≠ v) && decide (e.2 ≠ v)) }
    else none
  else none

/-- The whole `for v in &cycle.values` loop of `solve_preferences`. -/
def processCycle (prefs : List (α × List α)) (g : TTCGraph α) (c : List α) :
    Option (TTCGraph α) :=
  c.foldlM (processCycleVertex prefs) g

/-- Embeds the `while self.graph.node_count() > 0` loop of
`solve_preferences`.  Each iteration finds a cycle, strikes it from the
preferences, rewires and removes its vertices, and records it.  `fuel` bounds
the number of iterations; `none` is an `AlwaysCycles` error or an `unwrap`
panic or exhausted fuel (fuel = initial node count always suffices,
`solveFuel_spec` below, embedding the termination of the source loop). -/
def solveFuel : Nat → TTCGraph α → List (α × List α) → Option (List (List α))
  | 0, g, _ => if g.nodes.isEmpty then some [] else none
  | fuel + 1, g, prefs =>
    if g.nodes.isEmpty then some []
    else
      match findCycle g with
      | none => none
      | some c =>
        let prefs2 := removePrefs prefs c
        match processCycle prefs2 g c with
        | none => none
        | some g2 => (solveFuel fuel g2 prefs2).map (fun cs => c :: cs)

/-- Embeds `PreferenceGraph::solve_preferences` on a freshly built graph. -/
def solvePreferences (g : TTCGraph α) (prefs : List (α × List α)) :
    Option (List (List α)) :=
  solveFuel g.nodes.length g prefs

/-- The error taxonomy of the solver entry points: `PrefsError::InvalidChoice`
from `Preferences::new`, `TTCError::EmptyGraph` from `PreferenceGraph::new`,
and an internal error covering `TTCError::AlwaysCycles` and the `unwrap`
panics inside `solve_preferences` (proved unreachable on valid input). -/
inductive SolveError (α : Type) where
  | invalidChoice (v : α)
  | emptyGraph
  | internal
  deriving DecidableEq

/-- Embeds `Preferences::new`: fail with `InvalidChoice(k)` on the first entry
`(k, vs)` such that some element of `vs` is not a key of the map. -/
def preferencesNew (prefs : List (α × List α)) :
    Except (SolveError α) (List (α × List α)) :=
  match prefs.find? (fun p => !(p.2.all (fun a => prefs.any (fun q => decide (q.1 = a))))) with
  | some p => .error (.invalidChoice p.1)
  | none => .ok prefs

/-- `Preferences::new` followed by `PreferenceGraph::new` followed by
`solve_preferences`: the full solver pipeline on a raw mapping. -/
def solveTop (input : List (α × List α)) : Except (SolveError α) (List (List α)) :=
  match preferencesNew input with
  | .error e => .error e
  | .ok prefs =>
    if prefs.isEmpty then .error .emptyGraph
    else
      let g := setupGraph (prefs.map Prod.fst) prefs
      match solvePreferences g prefs with
      | none => .error .internal
      | some cs => .ok cs

/-- Association-map insertion with overwrite, embedding `HashMap::insert`. -/
def insertA (m : List (α × α)) (k v : α) : List (α × α) :=
  if m.any (fun p => decide (p.1 = k)) then
    m.map (fun p => if p.1 = k then (k, v) else p)
  else m ++ [(k, v)]

/-- Embeds `Allocation::from(Vec<Cycle<V>>)`: for each cycle, zip its value
list with its rotation by one and insert every pair. -/
def allocationFrom (cycles : List (List α)) : List (α × α) :=
  cycles.foldl (fun m c => (c.zip (c.rotate 1)).foldl (fun m2 p => insertA m2 p.1 p.2) m) []

/-- Lookup in an allocation, embedding `allocation.get(&v)`. -/
def allocLookup (m : List (α × α)) (v : α) : Option α :=
  (m.find? (fun p => decide (p.1 = v))).map Prod.snd

/-- Embeds `impl PartialEq for Cycle`: equal lengths and some rotation of the
first value list (`iter().cycle().skip(i).take(len)` for `i` in `0..len`)
equals the second.  Note that the `0..len` loop body never runs for empty
value lists. -/
def cycleEqB (c1 c2 : List α) : Bool :=
  if c1.length ≠ c2.length then false
  else (List.range c1.length).any (fun i => decide (c1.rotate i = c2))

/-- A nonempty directed cycle of the out-degree-one graph whose successor
function is `f`: consecutive elements are successors, and the successor of the
last element is the first. -/
def IsFCycle (f : α → α) (c : List α) : Prop :=
  c ≠ [] ∧ List.Chain' (fun a b => f a = b) c ∧ c.getLast?.map f = c.head?

/-- What holds of the graph/preferences pair at the top of every iteration of
the `solve_preferences` loop: nodes are distinct, the preference keys are
exactly the nodes, every listed preference is a node, and every node has
exactly one outgoing edge, to its currently preferred item. -/
structure Invariant (g : TTCGraph α) (prefs : List (α × List α)) : Prop where
  nodesNodup : g.nodes.Nodup
  keysNodup : (prefs.map Prod.fst).Nodup
  keysMem : ∀ x, x ∈ prefs.map Prod.fst ↔ x ∈ g.nodes
  valid : ∀ p ∈ prefs, ∀ a ∈ p.2, a ∈ g.nodes
  edgesForm : ∀ x, outTargets g x =
    if x ∈ g.nodes then [preferredItem prefs x] else []

/-- The cycles recorded by `solve_preferences`, in order: each one is a cycle
of the top-choice graph of the preferences as stripped by all cycles recorded
before it. -/
def SolveSound (prefs : List (α × List α)) : List (List α) → Prop
  | [] => True
  | c :: cs => IsFCycle (preferredItem prefs) c ∧ SolveSound (removePrefs prefs c) cs

/-- The paper example of `tests::basic_test` in `ttc/src/strict.rs`, with
participants `S1..S6` encoded as `1..6`, in the insertion order of the Rust
test vector. -/
def paperPrefs : List (Nat × List Nat) :=
  [(1, [3, 2, 4, 1]), (2, [3, 5, 6]), (3, [3, 1]),
   (4, [2, 5, 6, 4]), (5, [1, 3, 2]), (6, [2, 4, 5, 6])]

/-- The multiset of the output cycles, each taken up to rotation (a Mathlib
`Cycle`, i.e. a list modulo rotation): the order-independent content of a
`solve_preferences` result. -/
def cycleMultiset (cs : List (List α)) : Multiset (Cycle α) :=
  (cs.map (fun c => (c : Cycle α)) : List (Cycle α))

/-- The exchange property of the solver loop at node count `n`: if the loop
succeeds and `D` is any cycle of the current top-choice graph, then the
recorded cycle multiset equals `D` plus the multiset recorded by the loop
started after removing `D` first.  Proved for every `n` in `exchange_congr`. -/
def ExchangeAt (V : Type) [DecidableEq V] (n : Nat) : Prop :=
  ∀ (g : TTCGraph V) (prefs : List (V × List V)), Invariant g prefs →
    g.nodes.length = n →
    ∀ D : List V, IsFCycle (preferredItem prefs) D → D.Nodup →
      (∀ x ∈ D, x ∈ g.nodes) →
    ∀ cs, solvePreferences g prefs = some cs →
    ∀ g2, processCycle (removePrefs prefs D) g D = some g2 →
    ∀ cs2, solvePreferences g2 (removePrefs prefs D) = some cs2 →
    cycleMultiset cs = (D : Cycle V) ::ₘ cycleMultiset cs2

/-- The congruence property of the solver loop at node count `n`: two loop
states over the same node set (in any order) and lookup-equal preference maps
(entries in any order) record the same multiset of cycles up to rotation.
Proved for every `n` in `exchange_congr`. -/
def CongrAt (V : Type) [DecidableEq V] (n : Nat) : Prop :=
  ∀ (g1 : TTCGraph V) (prefs1 : List (V × List V)) (g2 : TTCGraph V)
      (prefs2 : List (V × List V)),
    Invariant g1 prefs1 → Invariant g2 prefs2 →
    (∀ v, lookupList prefs1 v = lookupList prefs2 v) →
    (∀ x, x ∈ g1.nodes ↔ x ∈ g2.nodes) →
    g1.nodes.length = n →
    ∀ cs1, solvePreferences g1 prefs1 = some cs1 →
    ∀ cs2, solvePreferences g2 prefs2 = some cs2 →
    cycleMultiset cs1 = cycleMultiset cs2

end TTC

namespace Store

/-! Embedding of the job/proof store of `monitor/server/src/db.rs`,
`monitor/server/src/db/schema.rs` and `monitor/src/prover/db.rs`.  Addresses
(`BYTEA` keys) are embedded as `Nat`; timestamps as `Int`; tables as
association lists with at most one row per address (`address` is the primary
key). -/

/-- `JobStatus` of `db/schema.rs` (the `job_status` enum). -/
inductive JobStatus where
  | created
  | inProgress
  | completed
  | errored
  deriving DecidableEq

/-- A `jobs` table row (the `Job` struct, minus the address key, which is the
association-list key). -/
structure Job where
  blockNumber : Int
  blockTimestamp : Int
  status : JobStatus
  error : Option String
  completedAt : Option Int
  deriving DecidableEq

/-- The store errors named by the specification, plus the unique-key
violation that a plain `INSERT` can raise. -/
inductive DbError where
  | rowNotFound
  | illegalTransition
  | uniqueViolation
  deriving DecidableEq

/-- Embeds `Database::update_job_status` (identical in both `db.rs`
variants): `UPDATE jobs SET status = $2, error = $3, completed_at = $4 WHERE
address = $1` — an unconditional update of every row whose address matches,
returning `Ok(())` regardless of the number of matched rows and of the old
status. -/
def updateJobStatus (jobs : List (Nat × Job)) (address : Nat)
    (newStatus : JobStatus) (error : Option String) (completedAt : Option Int) :
    List (Nat × Job) × Except DbError Unit :=
  (jobs.map (fun r =>
    if r.1 = address then
      (r.1, { r.2 with status := newStatus, error := error, completedAt := completedAt })
    else r),
   Except.ok ())

/-- A `proofs` table row: the journal bytes (the source's `proof` column)
and the seal bytes (the source's `seal` column). -/
structure ProofRow where
  proofBytes : List Nat
  sealBytes : List Nat
  deriving DecidableEq

/-- Embeds `Database::create_proof`: a plain `INSERT INTO proofs`; the
primary key on `address` makes a second insert for the same address fail. -/
def createProof (proofs : List (Nat × ProofRow)) (address : Nat)
    (row : ProofRow) : List (Nat × ProofRow) × Except DbError Unit :=
  if proofs.any (fun p => decide (p.1 = address)) then (proofs, .error .uniqueViolation)
  else (proofs ++ [(address, row)], .ok ())

/-- `SELECT ... FROM jobs WHERE address = $1` (`get_job_by_address`). -/
def lookupJob (jobs : List (Nat × Job)) (address : Nat) : Option Job :=
  (jobs.find? (fun r => decide (r.1 = address))).map Prod.snd

/-- `SELECT ... FROM proofs WHERE address = $1` (`get_proof_by_address`). -/
def lookupProof (proofs : List (Nat × ProofRow)) (address : Nat) : Option ProofRow :=
  (proofs.find? (fun r => decide (r.1 = address))).map Prod.snd

/-- The database state: the `jobs` and `proofs` tables. -/
structure DB where
  jobs : List (Nat × Job)
  proofs : List (Nat × ProofRow)
  deriving DecidableEq

/-- Embeds `ProverApiImpl::prove_impl` of
`monitor/server/bin/prover_server.rs`: on prover success it marks the job
Completed (`update_job_status(addr, Completed, None, Some(now))`) and writes
nothing else; on prover error it marks the job Errored with the error text.
The prover outcome (`self.app_env.prover.prove(address).await`) and the
wall-clock `now` are parameters of the embedding. -/
def proveImplMonitorBin (db : DB) (address : Nat) (now : Int)
    (result : Except String ProofRow) : DB × Except String ProofRow :=
  match result with
  | .ok p =>
    ({ db with jobs := (updateJobStatus db.jobs address .completed none (some now)).1 },
     .ok p)
  | .error e =>
    ({ db with jobs := (updateJobStatus db.jobs address .errored (some e) (some now)).1 },
     .error e)

/-- Embeds `ProverApiImpl::prove_impl` of `prover/server/src/main.rs`: on
prover success it first inserts the Proof row (`create_proof`, with the
journal bytes in the `proof` column) and then marks the job Completed; a
failing insert propagates the database error (the `?`) before the status
update.  On prover error it marks the job Errored with the error text. -/
def proveImplProverServer (db : DB) (address : Nat) (now : Int)
    (result : Except String ProofRow) : DB × Except String ProofRow :=
  match result with
  | .ok p =>
    match createProof db.proofs address p with
    | (proofs2, .error _) => ({ db with proofs := proofs2 }, .error "create_proof failed")
    | (proofs2, .ok _) =>
      ({ jobs := (updateJobStatus db.jobs address .completed none (some now)).1
       , proofs := proofs2 },
       .ok p)
  | .error e =>
    ({ db with jobs := (updateJobStatus db.jobs address .errored (some e) (some now)).1 },
     .error e)

end Store

namespace Guest

/-! Embedding of the zk guest program `methods/guest/src/main.rs`.  `U256`
token identifiers and `Address` owners are embedded as `Nat`. -/

/-- The fields of the on-chain `TokenPreferences` struct that the guest
reads (`owner`, `tokenId`, `preferences`; the remaining fields are dropped by
the `..` patterns in the source). -/
structure TokenPreferences where
  owner : Nat
  tokenId : Nat
  preferences : List Nat
  deriving DecidableEq

/-- The `TokenReallocation` struct committed to the journal. -/
structure TokenReallocation where
  tokenId : Nat
  newOwner : Nat
  deriving DecidableEq

/-- Embeds `build_owner_dict`: collect `(tokenId, owner)` pairs into a
`HashMap` (later duplicates overwrite, as `HashMap::from_iter` does). -/
def buildOwnerDict (prefs : List TokenPreferences) : List (Nat × Nat) :=
  prefs.foldl (fun m tp => TTC.insertA m tp.tokenId tp.owner) []

/-- Embeds `reallocate`: build `Preferences` keyed by `tokenId` from the
(verified) preference list, run the solver, and map each allocation entry
`(new_owner, token_id)` — i.e. `(v, A(v))` — to
`TokenReallocation { tokenId := A(v), newOwner := dict[v] }`.
`none` embeds the `unwrap` panics: `Preferences::new`,
`PreferenceGraph::new`, `solve_preferences`, and the owner-dictionary lookup
of a participant missing from the host-supplied dictionary. -/
def reallocate (dict : List (Nat × Nat)) (prefs : List TokenPreferences) :
    Option (List TokenReallocation) :=
  match TTC.solveTop (prefs.map (fun tp => (tp.tokenId, tp.preferences))) with
  | .error _ => none
  | .ok cs =>
    (TTC.allocationFrom cs).mapM (fun q =>
      (TTC.allocLookup dict q.1).map
        (fun owner => { tokenId := q.2, newOwner := owner }))

/-- The journal committed by the guest: the Steel commitment, the contract
address, and the reallocations. -/
structure Journal where
  commitment : Nat
  ttcContract : Nat
  reallocations : List TokenReallocation
  deriving DecidableEq

/-- Embeds the guest `main`: `hostPrefs` is the third host-supplied
`env::read` input (the ABI-decoded `Vec<TokenPreferences>`), while
`chainPrefs` is the result of the *verified* view call
`getAllTokenPreferences` against the committed chain state (a function of
`commitment`).  The owner dictionary is built from `hostPrefs`; the solver
input is `chainPrefs`.  `none` embeds a guest panic. -/
def guestMain (commitment : Nat) (contract : Nat)
    (hostPrefs chainPrefs : List TokenPreferences) : Option Journal :=
  (reallocate (buildOwnerDict hostPrefs) chainPrefs).map
    (fun rs => { commitment := commitment, ttcContract := contract,
                 reallocations := rs })

/-- A two-token chain state: token 1 (owner 10) prefers token 2, token 2
(owner 20) prefers token 1. -/
def chainTwoTokens : List TokenPreferences :=
  [{ owner := 10, tokenId := 1, preferences := [2] },
   { owner := 20, tokenId := 2, preferences := [1] }]

/-- The same tokens and preferences as `chainTwoTokens` but with a different
host-supplied owner for token 1. -/
def hostAltOwner : List TokenPreferences :=
  [{ owner := 11, tokenId := 1, preferences := [2] },
   { owner := 20, tokenId := 2, preferences := [1] }]

end Guest

namespace TTC

variable {α : Type} [DecidableEq α]

/-! ## Lemmas about the preference map -/

theorem lookupList_eq_none {prefs : List (α × List α)} {v : α} :
    lookupList prefs v = none ↔ v ∉ prefs.map Prod.fst := by
  induction prefs with
  | nil => simp [lookupList]
  | cons p t ih =>
    by_cases h : p.1 = v
    · subst h
      simp [lookupList, List.find?]
    · rw [show lookupList (p :: t) v = lookupList t v by
        simp [lookupList, List.find?, h], ih, List.map_cons]
      simp [Ne.symm h]

theorem lookupList_isSome {prefs : List (α × List α)} {v : α} :
    (lookupList prefs v).isSome ↔ v ∈ prefs.map Prod.fst := by
  rw [Option.isSome_iff_ne_none]
  constructor
  · intro hne
    by_contra hmem
    exact hne (lookupList_eq_none.mpr hmem)
  · intro hmem hnone
    exact (lookupList_eq_none.mp hnone) hmem

theorem lookupList_mem {prefs : List (α × List α)} {v : α} {l : List α}
    (h : lookupList prefs v = some l) : (v, l) ∈ prefs := by
  induction prefs with
  | nil => simp [lookupList] at h
  | cons p t ih =>
    by_cases hp : p.1 = v
    · simp [lookupList, List.find?, hp] at h
      subst hp h
      exact List.mem_cons_self _ _
    · rw [show lookupList (p :: t) v = lookupList t v by
        simp [lookupList, List.find?, hp]] at h
      exact List.mem_cons_of_mem _ (ih h)

theorem removePrefs_cons_mem {p : α × List α} {t : List (α × List α)} {chosen : List α}
    (hp : p.1 ∈ chosen) : removePrefs (p :: t) chosen = removePrefs t chosen := by
  simp [removePrefs, hp]

theorem removePrefs_cons_not_mem {p : α × List α} {t : List (α × List α)} {chosen : List α}
    (hp : p.1 ∉ chosen) :
    removePrefs (p :: t) chosen =
      (p.1, p.2.filter (fun x => decide (x ∉ chosen))) :: removePrefs t chosen := by
  simp [removePrefs, hp]

theorem lookupList_removePrefs_mem {prefs : List (α × List α)} {chosen : List α}
    {v : α} (hv : v ∈ chosen) : lookupList (removePrefs prefs chosen) v = none := by
  rw [lookupList_eq_none]
  intro hmem
  simp only [removePrefs, List.map_map, List.mem_map, List.mem_filter] at hmem
  obtain ⟨p, ⟨_, hp⟩, hfst⟩ := hmem
  simp only [Function.comp, decide_eq_true_eq] at hp hfst
  exact hp (hfst ▸ hv)

theorem lookupList_removePrefs_not_mem {prefs : List (α × List α)} {chosen : List α}
    {v : α} (hv : v ∉ chosen) :
    lookupList (removePrefs prefs chosen) v =
      (lookupList prefs v).map (fun l => l.filter (fun x => decide (x ∉ chosen))) := by
  induction prefs with
  | nil => simp [lookupList, removePrefs]
  | cons p t ih =>
    by_cases hp : p.1 = v
    · subst hp
      simp [lookupList, removePrefs, List.find?, hv]
    · by_cases hc : p.1 ∈ chosen
      · simpa [lookupList, removePrefs, List.find?, hc, hp] using ih
      · simpa [lookupList, removePrefs, List.find?, hc, hp] using ih

theorem keys_removePrefs (prefs : List (α × List α)) (chosen : List α) :
    (removePrefs prefs chosen).map Prod.fst =
      (prefs.map Prod.fst).filter (fun x => decide (x ∉ chosen)) := by
  induction prefs with
  | nil => simp [removePrefs]
  | cons p t ih =>
    by_cases hc : p.1 ∈ chosen
    · simpa [removePrefs, hc] using ih
    · simpa [removePrefs, hc] using ih

theorem removePrefs_removePrefs (prefs : List (α × List α)) (c d : List α) :
    removePrefs (removePrefs prefs c) d = removePrefs prefs (c ++ d) := by
  induction prefs with
  | nil => simp [removePrefs]
  | cons p t ih =>
    by_cases hc : p.1 ∈ c
    · rw [removePrefs_cons_mem hc, removePrefs_cons_mem (by simp [hc]), ih]
    · by_cases hd : p.1 ∈ d
      · rw [removePrefs_cons_not_mem hc,
          show removePrefs ((p.1, p.2.filter (fun x => decide (x ∉ c))) :: removePrefs t c) d
            = removePrefs (removePrefs t c) d from removePrefs_cons_mem hd,
          removePrefs_cons_mem (show p.1 ∈ c ++ d by simp [hd]), ih]
      · rw [removePrefs_cons_not_mem hc,
          show removePrefs ((p.1, p.2.filter (fun x => decide (x ∉ c))) :: removePrefs t c) d
            = (p.1, (p.2.filter (fun x => decide (x ∉ c))).filter (fun x => decide (x ∉ d)))
              :: removePrefs (removePrefs t c) d from removePrefs_cons_not_mem hd,
          removePrefs_cons_not_mem (show p.1 ∉ c ++ d by simp [hc, hd]), ih]
        congr 2
        rw [List.filter_filter]
        apply List.filter_congr
        intro x _
        by_cases h1 : x ∈ c <;> by_cases h2 : x ∈ d <;> simp [h1, h2]

theorem removePrefs_congr {prefs : List (α × List α)} {c d : List α}
    (h : ∀ x, x ∈ c ↔ x ∈ d) : removePrefs prefs c = removePrefs prefs d := by
  induction prefs with
  | nil => simp [removePrefs]
  | cons p t ih =>
    by_cases hc : p.1 ∈ c
    · have hd : p.1 ∈ d := (h p.1).mp hc
      rw [removePrefs_cons_mem hc, removePrefs_cons_mem hd, ih]
    · have hd : p.1 ∉ d := fun hx => hc ((h p.1).mpr hx)
      rw [removePrefs_cons_not_mem hc, removePrefs_cons_not_mem hd, ih]
      congr 2
      apply List.filter_congr
      intro x _
      simp [h x]

theorem preferredItem_congr {p1 p2 : List (α × List α)}
    (h : ∀ v, lookupList p1 v = lookupList p2 v) (v : α) :
    preferredItem p1 v = preferredItem p2 v := by
  simp [preferredItem, h v]

/-- The preferred item of a surviving vertex does not change when a disjoint
set of vertices is struck from the preference lists, provided the preferred
item itself survives. -/
theorem preferredItem_removePrefs {prefs : List (α × List α)} {chosen : List α}
    {v : α} (hv : v ∉ chosen) (hpi : preferredItem prefs v ∉ chosen) :
    preferredItem (removePrefs prefs chosen) v = preferredItem prefs v := by
  rw [preferredItem, lookupList_removePrefs_not_mem hv]
  match hl : lookupList prefs v with
  | none => simp [preferredItem, hl]
  | some l =>
    match l with
    | [] => simp [preferredItem, hl]
    | h :: t =>
      have hh : preferredItem prefs v = h := by simp [preferredItem, hl]
      rw [hh] at hpi
      simp [preferredItem, hl, hpi]

/-! ## Lemmas about swap-removal of graph nodes -/

theorem mem_split_first {l : List α} {v : α} (h : v ∈ l) :
    ∃ l₁ l₂, l = l₁ ++ v :: l₂ ∧ v ∉ l₁ := by
  induction l with
  | nil => cases h
  | cons a t ih =>
    by_cases ha : v = a
    · exact ⟨[], t, by simp [ha], by simp⟩
    · obtain ⟨l₁, l₂, rfl, hl₁⟩ := ih ((List.mem_cons.mp h).resolve_left ha)
      exact ⟨a :: l₁, l₂, rfl, by simp [ha, hl₁]⟩

theorem set_length_append (l₁ : List α) (a b : α) (l₂ : List α) :
    (l₁ ++ a :: l₂).set l₁.length b = l₁ ++ b :: l₂ := by
  induction l₁ with
  | nil => simp
  | cons x t ih => simp [List.set, ih]

theorem swapRemove_of_getLast {l : List α} {b : α} (hb : l.getLast? = some b) (v : α) :
    swapRemove l v = (l.set (l.indexOf v) b).dropLast := by
  unfold swapRemove
  rw [hb]

theorem swapRemove_perm {l : List α} {v : α} (h : v ∈ l) :
    List.Perm (swapRemove l v) (l.erase v) := by
  obtain ⟨l₁, l₂, rfl, hl₁⟩ := mem_split_first h
  have hidx : (l₁ ++ v :: l₂).indexOf v = l₁.length := by
    rw [List.indexOf_append_of_not_mem hl₁]
    simp [List.indexOf_cons_self]
  have herase : (l₁ ++ v :: l₂).erase v = l₁ ++ l₂ := by
    rw [List.erase_append_right _ hl₁, List.erase_cons_head]
  rcases List.eq_nil_or_concat l₂ with h2 | ⟨l₂x, b, h2⟩
  · subst h2
    rw [herase]
    have hlast : (l₁ ++ [v]).getLast? = some v := List.getLast?_concat _
    rw [swapRemove_of_getLast hlast, hidx, set_length_append, List.dropLast_concat,
      List.append_nil]
  · rw [List.concat_eq_append] at h2
    subst h2
    rw [herase]
    have hlast : (l₁ ++ v :: (l₂x ++ [b])).getLast? = some b := by
      rw [show l₁ ++ v :: (l₂x ++ [b]) = (l₁ ++ v :: l₂x) ++ [b] by simp]
      exact List.getLast?_concat _
    rw [swapRemove_of_getLast hlast, hidx, set_length_append]
    rw [show l₁ ++ b :: (l₂x ++ [b]) = (l₁ ++ b :: l₂x) ++ [b] by simp,
      List.dropLast_concat]
    exact List.Perm.append_left l₁
      (show List.Perm ([b] ++ l₂x) (l₂x ++ [b]) from List.perm_append_comm)

theorem swapRemove_nodup {l : List α} {v : α} (h : v ∈ l) (hnd : l.Nodup) :
    (swapRemove l v).Nodup :=
  (swapRemove_perm h).nodup_iff.mpr (hnd.erase v)

theorem swapRemove_length {l : List α} {v : α} (h : v ∈ l) :
    (swapRemove l v).length = l.length - 1 := by
  rw [(swapRemove_perm h).length_eq, List.length_erase_of_mem h]

theorem mem_swapRemove {l : List α} {v x : α} (h : v ∈ l) (hnd : l.Nodup) :
    x ∈ swapRemove l v ↔ x ≠ v ∧ x ∈ l := by
  rw [(swapRemove_perm h).mem_iff, hnd.mem_erase_iff]

/-! ## The depth-first cycle search -/

theorem dropWhile_ne_first {l : List α} {x : α} (h : x ∈ l) :
    ∃ t, l.dropWhile (fun y => decide (y ≠ x)) = x :: t := by
  induction l with
  | nil => cases h
  | cons a l ih =>
    by_cases ha : a = x
    · subst ha
      exact ⟨l, by simp [List.dropWhile]⟩
    · rw [List.dropWhile_cons_of_pos (by simp [ha])]
      exact ih ((List.mem_cons.mp h).resolve_left (fun he => ha he.symm))

theorem findCycleAux_isSome {S : List α} {f : α → α} (hf : ∀ x ∈ S, f x ∈ S) :
    ∀ (fuel : Nat) (path : List α) (cur : α),
    (path ++ [cur]).Nodup → (∀ x ∈ path ++ [cur], x ∈ S) →
    S.length + 1 ≤ fuel + (path ++ [cur]).length →
    (findCycleAux f fuel path cur).isSome := by
  intro fuel
  induction fuel with
  | zero =>
    intro path cur hnd hsub hlen
    exfalso
    have hle := (List.subperm_of_subset hnd (fun x hx => hsub x hx)).length_le
    omega
  | succ fuel ih =>
    intro path cur hnd hsub hlen
    simp only [findCycleAux]
    by_cases hmem : f cur ∈ path ++ [cur]
    · simp [hmem]
    · rw [if_neg hmem]
      apply ih (path ++ [cur]) (f cur)
      · rw [List.nodup_append]
        exact ⟨hnd, List.nodup_singleton _,
          fun a ha hb => hmem ((List.mem_singleton.mp hb) ▸ ha)⟩
      · intro x hx
        rcases List.mem_append.mp hx with hx | hx
        · exact hsub x hx
        · rw [List.mem_singleton.mp hx]
          exact hf cur (hsub cur (by simp))
      · simp only [List.length_append, List.length_singleton] at hlen ⊢
        omega

theorem findCycleAux_spec {S : List α} {f : α → α} (hf : ∀ x ∈ S, f x ∈ S) :
    ∀ (fuel : Nat) (path : List α) (cur : α) (c : List α),
    findCycleAux f fuel path cur = some c →
    (path ++ [cur]).Nodup → (∀ x ∈ path ++ [cur], x ∈ S) →
    List.Chain' (fun a b => f a = b) (path ++ [cur]) →
    IsFCycle f c ∧ c.Nodup ∧ ∀ x ∈ c, x ∈ S := by
  intro fuel
  induction fuel with
  | zero => intro path cur c hc _ _ _; simp [findCycleAux] at hc
  | succ fuel ih =>
    intro path cur c hc hnd hsub hchain
    simp only [findCycleAux] at hc
    by_cases hmem : f cur ∈ path ++ [cur]
    · rw [if_pos hmem, Option.some_inj] at hc
      subst hc
      have hsuffix : (path ++ [cur]).dropWhile (fun y => decide (y ≠ f cur))
          <:+ path ++ [cur] := List.dropWhile_suffix _
      obtain ⟨t, hct⟩ := dropWhile_ne_first hmem
      have hcnd : ((path ++ [cur]).dropWhile (fun y => decide (y ≠ f cur))).Nodup :=
        List.Nodup.sublist hsuffix.sublist hnd
      have hcne : (path ++ [cur]).dropWhile (fun y => decide (y ≠ f cur)) ≠ [] := by
        rw [hct]; exact List.cons_ne_nil _ _
      have hclast : ((path ++ [cur]).dropWhile (fun y => decide (y ≠ f cur))).getLast?
          = some cur := by
        obtain ⟨pre, hpre⟩ := hsuffix
        rw [show (path ++ [cur]).dropWhile (fun y => decide (y ≠ f cur))
            = ((path ++ [cur]).dropWhile (fun y => decide (y ≠ f cur))) from rfl]
        calc ((path ++ [cur]).dropWhile (fun y => decide (y ≠ f cur))).getLast?
            = (pre ++ (path ++ [cur]).dropWhile (fun y => decide (y ≠ f cur))).getLast? :=
              (List.getLast?_append_of_ne_nil pre hcne).symm
          _ = (path ++ [cur]).getLast? := by rw [hpre]
          _ = some cur := List.getLast?_concat _
      refine ⟨⟨hcne, hchain.suffix hsuffix, ?_⟩, hcnd, ?_⟩
      · rw [hclast, hct]
        simp
      · intro x hx
        exact hsub x (hsuffix.sublist.subset hx)
    · rw [if_neg hmem] at hc
      apply ih (path ++ [cur]) (f cur) c hc
      · rw [List.nodup_append]
        exact ⟨hnd, List.nodup_singleton _,
          fun a ha hb => hmem ((List.mem_singleton.mp hb) ▸ ha)⟩
      · intro x hx
        rcases List.mem_append.mp hx with hx | hx
        · exact hsub x hx
        · rw [List.mem_singleton.mp hx]
          exact hf cur (hsub cur (by simp))
      · apply List.Chain'.append hchain (List.chain'_singleton _)
        intro x hx y hy
        rw [List.getLast?_concat, Option.mem_def, Option.some_inj] at hx
        rw [List.head?_cons, Option.mem_def, Option.some_inj] at hy
        subst hx hy
        rfl

/-! ## The reachable-state invariant of the solver loop -/

theorem find?_eq_head?_filter (p : α × α → Bool) (l : List (α × α)) :
    l.find? p = (l.filter p).head? := by
  induction l with
  | nil => rfl
  | cons a t ih =>
    by_cases ha : p a
    · simp [List.find?, List.filter, ha]
    · simp only [List.find?_cons, List.filter_cons, ha]
      simpa [Bool.not_eq_true] using ih

theorem outTargets_singleton {g : TTCGraph α} {x t : α}
    (h : outTargets g x = [t]) :
    g.edges.filter (fun e => decide (e.1 = x)) = [(x, t)] := by
  rw [outTargets] at h
  obtain ⟨e, he⟩ := List.length_eq_one.mp (by rw [← List.length_map _ Prod.snd, h]; rfl)
  rw [he] at h ⊢
  have hx : e.1 = x := by
    have hmem : e ∈ g.edges.filter (fun e => decide (e.1 = x)) := by
      rw [he]; exact List.mem_singleton_self e
    simpa using (List.mem_filter.mp hmem).2
  have ht : e.2 = t := by simpa using h
  rw [show e = (x, t) from Prod.ext hx ht]

theorem edgeTarget_eq {g : TTCGraph α} {prefs : List (α × List α)}
    (hinv : Invariant g prefs) {x : α} (hx : x ∈ g.nodes) :
    edgeTarget g x = preferredItem prefs x := by
  have h := hinv.edgesForm x
  rw [if_pos hx] at h
  rw [edgeTarget, find?_eq_head?_filter, outTargets_singleton h]
  rfl

theorem preferredItem_mem_nodes {g : TTCGraph α} {prefs : List (α × List α)}
    (hinv : Invariant g prefs) {x : α} (hx : x ∈ g.nodes) :
    preferredItem prefs x ∈ g.nodes := by
  match hl : lookupList prefs x with
  | none => simpa [preferredItem, hl] using hx
  | some l =>
    match l with
    | [] => simpa [preferredItem, hl] using hx
    | h :: t =>
      have := hinv.valid (x, h :: t) (lookupList_mem hl) h (by simp)
      simpa [preferredItem, hl] using this

/-- Every edge source that points at `x` is a node whose edge target is `x`. -/
theorem incoming_mem {g : TTCGraph α} {prefs : List (α × List α)}
    (hinv : Invariant g prefs) {n x : α}
    (h : (n, x) ∈ g.edges) : n ∈ g.nodes ∧ preferredItem prefs n = x := by
  have hx : x ∈ outTargets g n := by
    rw [outTargets]
    exact List.mem_map_of_mem Prod.snd (List.mem_filter.mpr ⟨h, by simp⟩)
  have h2 := hinv.edgesForm n
  by_cases hn : n ∈ g.nodes
  · rw [if_pos hn] at h2
    rw [h2] at hx
    exact ⟨hn, (List.mem_singleton.mp hx).symm⟩
  · rw [if_neg hn] at h2
    rw [h2] at hx
    cases hx

theorem findCycle_spec {g : TTCGraph α} {prefs : List (α × List α)}
    (hinv : Invariant g prefs) (hne : g.nodes ≠ []) :
    ∃ c, findCycle g = some c ∧ IsFCycle (preferredItem prefs) c ∧ c.Nodup ∧
      ∀ x ∈ c, x ∈ g.nodes := by
  obtain ⟨s, t, hst⟩ := List.exists_cons_of_ne_nil hne
  have hf : ∀ x ∈ g.nodes, edgeTarget g x ∈ g.nodes := by
    intro x hx
    rw [edgeTarget_eq hinv hx]
    exact preferredItem_mem_nodes hinv hx
  have hs : s ∈ g.nodes := by rw [hst]; simp
  have hsome : (findCycleAux (edgeTarget g) g.nodes.length [] s).isSome := by
    apply findCycleAux_isSome hf
    · simpa using List.nodup_singleton s
    · intro x hx
      rw [List.nil_append, List.mem_singleton] at hx
      exact hx ▸ hs
    · simp
  obtain ⟨c, hc⟩ := Option.isSome_iff_exists.mp hsome
  have hspec := findCycleAux_spec hf g.nodes.length [] s c hc
    (by simpa using List.nodup_singleton s)
    (by intro x hx; rw [List.nil_append, List.mem_singleton] at hx; exact hx ▸ hs)
    (by simp)
  obtain ⟨⟨hcne, hchain, hwrap⟩, hcnd, hcsub⟩ := hspec
  refine ⟨c, ?_, ⟨hcne, ?_, ?_⟩, hcnd, hcsub⟩
  · rw [findCycle, hst]
    simpa [hst] using hc
  · rw [List.chain'_iff_get] at hchain ⊢
    intro i hi
    rw [← hchain i hi]
    exact (edgeTarget_eq hinv (hcsub _ (List.get_mem c i _))).symm
  · rw [← hwrap]
    rcases hl : c.getLast? with _ | y
    · rw [List.getLast?_eq_none_iff] at hl
      exact absurd hl hcne
    · have hy : y ∈ c := by
        obtain ⟨h0, hy2⟩ := List.mem_getLast?_eq_getLast
          (show y ∈ c.getLast? from by rw [hl]; rfl)
        exact hy2 ▸ List.getLast_mem h0
      simp only [Option.map_some']
      rw [edgeTarget_eq hinv (hcsub y hy)]

/-! ## One step of the cycle-removal loop -/

theorem outPart_old {l : List (α × α)} {x v t : α}
    (h : l.filter (fun e => decide (e.1 = x)) = [(x, t)]) :
    ((l.filter (fun e => decide (e.1 ≠ v) && decide (e.2 ≠ v))).filter
        (fun e => decide (e.1 = x))).map Prod.snd
      = if x ≠ v ∧ t ≠ v then [t] else [] := by
  rw [List.filter_comm, h, List.filter_singleton]
  by_cases h1 : x = v
  · simp [h1]
  · by_cases h2 : t = v <;> simp [h1, h2]

theorem outPart_old_nil {l : List (α × α)} {x v : α}
    (h : l.filter (fun e => decide (e.1 = x)) = []) :
    ((l.filter (fun e => decide (e.1 ≠ v) && decide (e.2 ≠ v))).filter
        (fun e => decide (e.1 = x))).map Prod.snd = [] := by
  rw [List.filter_comm, h]
  rfl

theorem incoming_filter_eq {l : List (α × α)} {x v t : α}
    (h : l.filter (fun e => decide (e.1 = x)) = [(x, t)]) :
    ((l.filter (fun e => decide (e.2 = v))).map Prod.fst).filter
        (fun n => decide (n = x)) = if t = v then [x] else [] := by
  rw [List.filter_map]
  rw [show (fun n => decide (n = x)) ∘ (Prod.fst : α × α → α)
      = fun e : α × α => decide (e.1 = x) from rfl]
  rw [List.filter_comm, h, List.filter_singleton]
  by_cases h2 : t = v <;> simp [h2]

theorem incoming_filter_nil {l : List (α × α)} {x v : α}
    (h : l.filter (fun e => decide (e.1 = x)) = []) :
    ((l.filter (fun e => decide (e.2 = v))).map Prod.fst).filter
        (fun n => decide (n = x)) = [] := by
  rw [List.filter_map]
  rw [show (fun n => decide (n = x)) ∘ (Prod.fst : α × α → α)
      = fun e : α × α => decide (e.1 = x) from rfl]
  rw [List.filter_comm, h]
  rfl

theorem outPart_new {l : List (α × α)} {x v t : α} (π : α → α)
    (h : l.filter (fun e => decide (e.1 = x)) = [(x, t)]) :
    (((((l.filter (fun e => decide (e.2 = v))).map Prod.fst).map
        (fun n => (n, π n))).filter
          (fun e => decide (e.1 ≠ v) && decide (e.2 ≠ v))).filter
        (fun e => decide (e.1 = x))).map Prod.snd
      = if t = v ∧ x ≠ v ∧ π x ≠ v then [π x] else [] := by
  rw [List.filter_comm, List.filter_map]
  rw [show (fun e : α × α => decide (e.1 = x)) ∘ (fun n => (n, π n))
      = fun n => decide (n = x) from rfl]
  rw [incoming_filter_eq h]
  by_cases h2 : t = v
  · rw [if_pos h2]
    by_cases h3 : x = v
    · simp [h2, h3]
    · by_cases h4 : π x = v <;> simp [h2, h3, h4, List.filter_singleton]
  · rw [if_neg h2]
    simp [h2]

theorem outPart_new_nil {l : List (α × α)} {x v : α} (π : α → α)
    (h : l.filter (fun e => decide (e.1 = x)) = []) :
    (((((l.filter (fun e => decide (e.2 = v))).map Prod.fst).map
        (fun n => (n, π n))).filter
          (fun e => decide (e.1 ≠ v) && decide (e.2 ≠ v))).filter
        (fun e => decide (e.1 = x))).map Prod.snd = [] := by
  rw [List.filter_comm, List.filter_map]
  rw [show (fun e : α × α => decide (e.1 = x)) ∘ (fun n => (n, π n))
      = fun n => decide (n = x) from rfl]
  rw [incoming_filter_nil h]
  rfl

/-- Effect of processing one vertex `v` of the found cycle: `v`'s node is
swap-removed, and each vertex whose edge pointed at `v` now points at its
preferred item under the already-stripped preferences; all other edges are
unchanged. -/
theorem processCycleVertex_spec {prefs2 : List (α × List α)} {g : TTCGraph α}
    {v : α} {E : α → α}
    (hnd : g.nodes.Nodup) (hv : v ∈ g.nodes)
    (hE : ∀ x, outTargets g x = if x ∈ g.nodes then [E x] else [])
    (hpi : ∀ n ∈ g.nodes,
      (preferredItem prefs2 n ∈ g.nodes ∧ preferredItem prefs2 n ≠ v)
        ∨ preferredItem prefs2 n = n) :
    ∃ g2, processCycleVertex prefs2 g v = some g2 ∧
      g2.nodes = swapRemove g.nodes v ∧
      ∀ x, outTargets g2 x = if x ∈ g2.nodes
        then [if E x = v then preferredItem prefs2 x else E x] else [] := by
  have hA : ∀ n ∈ (g.edges.filter (fun e => decide (e.2 = v))).map Prod.fst,
      n ∈ g.nodes ∧ E n = v := by
    intro n hn
    obtain ⟨e, he, rfl⟩ := List.mem_map.mp hn
    have he2 := List.mem_filter.mp he
    have hev : e.2 = v := by simpa using he2.2
    have hvout : v ∈ outTargets g e.1 := by
      rw [outTargets, ← hev]
      exact List.mem_map_of_mem Prod.snd (List.mem_filter.mpr ⟨he2.1, by simp⟩)
    have hEn := hE e.1
    by_cases hng : e.1 ∈ g.nodes
    · rw [if_pos hng] at hEn
      rw [hEn] at hvout
      exact ⟨hng, (List.mem_singleton.mp hvout).symm⟩
    · rw [if_neg hng] at hEn
      rw [hEn] at hvout
      cases hvout
  have hall : ((g.edges.filter (fun e => decide (e.2 = v))).map Prod.fst).all
      (fun n => decide (preferredItem prefs2 n ∈ g.nodes)) = true := by
    rw [List.all_eq_true]
    intro n hn
    obtain ⟨hng, _⟩ := hA n hn
    rcases hpi n hng with ⟨h1, _⟩ | h1
    · simpa using h1
    · rw [h1]
      simpa using hng
  have heq : processCycleVertex prefs2 g v = some
      { nodes := swapRemove g.nodes v
      , edges := (g.edges ++ ((g.edges.filter (fun e => decide (e.2 = v))).map
            Prod.fst).map (fun n => (n, preferredItem prefs2 n))).filter
          (fun e => decide (e.1 ≠ v) && decide (e.2 ≠ v)) } := by
    rw [processCycleVertex, if_pos hv, if_pos hall]
  refine ⟨_, heq, rfl, ?_⟩
  intro x
  dsimp only
  have hsingle : ∀ hx : x ∈ g.nodes,
      g.edges.filter (fun e => decide (e.1 = x)) = [(x, E x)] := by
    intro hx
    apply outTargets_singleton
    rw [hE x, if_pos hx]
  have hnil : x ∉ g.nodes → g.edges.filter (fun e => decide (e.1 = x)) = [] := by
    intro hx
    have h0 := hE x
    rw [if_neg hx] at h0
    exact List.map_eq_nil_iff.mp h0
  have hout2 : outTargets
      { nodes := swapRemove g.nodes v
      , edges := (g.edges ++ ((g.edges.filter (fun e => decide (e.2 = v))).map
            Prod.fst).map (fun n => (n, preferredItem prefs2 n))).filter
          (fun e => decide (e.1 ≠ v) && decide (e.2 ≠ v)) } x
      = ((g.edges.filter (fun e => decide (e.1 ≠ v) && decide (e.2 ≠ v))).filter
          (fun e => decide (e.1 = x))).map Prod.snd
        ++ (((((g.edges.filter (fun e => decide (e.2 = v))).map Prod.fst).map
            (fun n => (n, preferredItem prefs2 n))).filter
              (fun e => decide (e.1 ≠ v) && decide (e.2 ≠ v))).filter
            (fun e => decide (e.1 = x))).map Prod.snd := by
    rw [outTargets]
    rw [List.filter_append, List.filter_append, List.map_append]
  rw [hout2]
  by_cases hxg : x ∈ g.nodes
  · by_cases hxv : x = v
    · subst hxv
      rw [outPart_old (hsingle hxg), outPart_new _ (hsingle hxg)]
      simp [mem_swapRemove hv hnd]
    · rw [outPart_old (hsingle hxg), outPart_new _ (hsingle hxg)]
      have hpix : preferredItem prefs2 x ≠ v := by
        rcases hpi x hxg with ⟨_, h1⟩ | h1
        · exact h1
        · rw [h1]; exact hxv
      by_cases hExv : E x = v
      · simp [mem_swapRemove hv hnd, hxv, hxg, hExv, hpix]
      · simp [mem_swapRemove hv hnd, hxv, hxg, hExv]
  · rw [outPart_old_nil (hnil hxg), outPart_new_nil _ (hnil hxg)]
    simp [mem_swapRemove hv hnd, hxg]

/-- Effect of the whole `for v in &cycle.values` loop: cycle vertices are
removed, and every surviving vertex whose edge pointed into the cycle is
rewired to its preferred item under the stripped preferences. -/
theorem processCycle_spec (prefs2 : List (α × List α)) :
    ∀ (c : List α) (g : TTCGraph α) (E : α → α),
    g.nodes.Nodup → c.Nodup → (∀ x ∈ c, x ∈ g.nodes) →
    (∀ x, outTargets g x = if x ∈ g.nodes then [E x] else []) →
    (∀ n ∈ g.nodes,
      (preferredItem prefs2 n ∈ g.nodes ∧ preferredItem prefs2 n ∉ c)
        ∨ preferredItem prefs2 n = n) →
    ∃ g2, processCycle prefs2 g c = some g2 ∧
      g2.nodes.Nodup ∧
      (∀ x, x ∈ g2.nodes ↔ (x ∈ g.nodes ∧ x ∉ c)) ∧
      g2.nodes.length + c.length = g.nodes.length ∧
      (∀ x, outTargets g2 x = if x ∈ g2.nodes
        then [if E x ∈ c then preferredItem prefs2 x else E x] else []) := by
  intro c
  induction c with
  | nil =>
    intro g E hnd _ _ hE _
    refine ⟨g, rfl, hnd, by simp, by simp, ?_⟩
    intro x
    simpa using hE x
  | cons v c' ih =>
    intro g E hnd hcnd hcsub hE hpi
    have hv : v ∈ g.nodes := hcsub v (by simp)
    obtain ⟨g1, hg1, hg1nodes, hg1E⟩ := processCycleVertex_spec hnd hv hE
      (by
        intro n hn
        rcases hpi n hn with ⟨h1, h2⟩ | h1
        · exact Or.inl ⟨h1, fun hcon => h2 (hcon ▸ List.mem_cons_self v c')⟩
        · exact Or.inr h1)
    have hg1nd : g1.nodes.Nodup := by
      rw [hg1nodes]
      exact swapRemove_nodup hv hnd
    have hg1mem : ∀ x, x ∈ g1.nodes ↔ (x ≠ v ∧ x ∈ g.nodes) := by
      intro x
      rw [hg1nodes, mem_swapRemove hv hnd]
    have hvnotc : v ∉ c' := (List.nodup_cons.mp hcnd).1
    obtain ⟨g2, hg2, hg2nd, hg2mem, hg2len, hg2E⟩ :=
      ih g1 (fun x => if E x = v then preferredItem prefs2 x else E x)
        hg1nd (List.nodup_cons.mp hcnd).2
        (by
          intro x hx
          rw [hg1mem]
          exact ⟨fun he => hvnotc (he ▸ hx), hcsub x (List.mem_cons_of_mem v hx)⟩)
        hg1E
        (by
          intro n hn
          have hng : n ∈ g.nodes := ((hg1mem n).mp hn).2
          rcases hpi n hng with ⟨h1, h2⟩ | h1
          · refine Or.inl ⟨?_, fun hcon => h2 (List.mem_cons_of_mem v hcon)⟩
            rw [hg1mem]
            exact ⟨fun hcon => h2 (hcon ▸ List.mem_cons_self v c'), h1⟩
          · exact Or.inr h1)
    refine ⟨g2, ?_, hg2nd, ?_, ?_, ?_⟩
    · rw [processCycle] at hg2 ⊢
      rw [List.foldlM_cons, hg1]
      exact hg2
    · intro x
      rw [hg2mem, hg1mem]
      constructor
      · rintro ⟨⟨h1, h2⟩, h3⟩
        exact ⟨h2, by simp [h1, h3]⟩
      · rintro ⟨h1, h2⟩
        simp only [List.mem_cons, not_or] at h2
        exact ⟨⟨h2.1, h1⟩, h2.2⟩
    · rw [hg1nodes, swapRemove_length hv] at hg2len
      have hpos : 0 < g.nodes.length := List.length_pos.mpr (by
        intro hcon
        rw [hcon] at hv
        cases hv)
      simp only [List.length_cons]
      omega
    · intro x
      rw [hg2E x]
      by_cases hx2 : x ∈ g2.nodes
      · rw [if_pos hx2, if_pos hx2]
        have hxg : x ∈ g.nodes := ((hg1mem x).mp ((hg2mem x).mp hx2).1).2
        have hxnc' : x ∉ c' := ((hg2mem x).mp hx2).2
        by_cases hExv : E x = v
        · have hpix : preferredItem prefs2 x ∉ c' := by
            rcases hpi x hxg with ⟨_, h2⟩ | h1
            · exact fun hcon => h2 (List.mem_cons_of_mem v hcon)
            · rw [h1]
              exact ((hg2mem x).mp hx2).2
          simp [hExv, hpix]
        · simp [hExv]
      · rw [if_neg hx2, if_neg hx2]

/-! ## One full iteration of the solver loop preserves the invariant -/

theorem mem_removePrefs {prefs : List (α × List α)} {c : List α}
    {q : α × List α} (h : q ∈ removePrefs prefs c) :
    ∃ p ∈ prefs, p.1 ∉ c ∧ q = (p.1, p.2.filter (fun x => decide (x ∉ c))) := by
  rw [removePrefs] at h
  obtain ⟨p, hp, rfl⟩ := List.mem_map.mp h
  have hp2 := List.mem_filter.mp hp
  exact ⟨p, hp2.1, by simpa using hp2.2, rfl⟩

theorem preferredItem_stripped {prefs : List (α × List α)} {c : List α}
    {S : List α} (hvalid : ∀ p ∈ prefs, ∀ a ∈ p.2, a ∈ S) (n : α) :
    (preferredItem (removePrefs prefs c) n ∈ S
        ∧ preferredItem (removePrefs prefs c) n ∉ c)
      ∨ preferredItem (removePrefs prefs c) n = n := by
  match hl : lookupList (removePrefs prefs c) n with
  | none => exact Or.inr (by simp [preferredItem, hl])
  | some l2 =>
    match l2 with
    | [] => exact Or.inr (by simp [preferredItem, hl])
    | h :: t =>
      left
      have hpi : preferredItem (removePrefs prefs c) n = h := by
        simp [preferredItem, hl]
      rw [hpi]
      obtain ⟨p, hp, _, hq⟩ := mem_removePrefs (lookupList_mem hl)
      have hh : h ∈ p.2.filter (fun x => decide (x ∉ c)) := by
        rw [show p.2.filter (fun x => decide (x ∉ c)) = h :: t from
          congrArg Prod.snd hq.symm]
        simp
      have hh2 := List.mem_filter.mp hh
      exact ⟨hvalid p hp h hh2.1, by simpa using hh2.2⟩

theorem valid_removePrefs {prefs : List (α × List α)} {c : List α} {S : List α}
    (hvalid : ∀ p ∈ prefs, ∀ a ∈ p.2, a ∈ S) :
    ∀ q ∈ removePrefs prefs c, ∀ a ∈ q.2, a ∈ S ∧ a ∉ c := by
  intro q hq a ha
  obtain ⟨p, hp, _, rfl⟩ := mem_removePrefs hq
  have ha2 := List.mem_filter.mp ha
  exact ⟨hvalid p hp a ha2.1, by simpa using ha2.2⟩

/-- One iteration of the `solve_preferences` loop: removing the found cycle
re-establishes the invariant on the reduced graph and stripped preferences,
and removes exactly the cycle's vertices. -/
theorem round_spec {g : TTCGraph α} {prefs : List (α × List α)}
    (hinv : Invariant g prefs) {c : List α} (hcnd : c.Nodup)
    (hcsub : ∀ x ∈ c, x ∈ g.nodes) :
    ∃ g2, processCycle (removePrefs prefs c) g c = some g2 ∧
      Invariant g2 (removePrefs prefs c) ∧
      (∀ x, x ∈ g2.nodes ↔ x ∈ g.nodes ∧ x ∉ c) ∧
      g2.nodes.length + c.length = g.nodes.length := by
  have hpi2 : ∀ n ∈ g.nodes,
      (preferredItem (removePrefs prefs c) n ∈ g.nodes
        ∧ preferredItem (removePrefs prefs c) n ∉ c)
      ∨ preferredItem (removePrefs prefs c) n = n :=
    fun n _ => preferredItem_stripped hinv.valid n
  obtain ⟨g2, hg2, hg2nd, hg2mem, hg2len, hg2E⟩ :=
    processCycle_spec (removePrefs prefs c) c g (preferredItem prefs)
      hinv.nodesNodup hcnd hcsub hinv.edgesForm hpi2
  refine ⟨g2, hg2, ?_, hg2mem, hg2len⟩
  constructor
  · exact hg2nd
  · rw [keys_removePrefs]
    exact (hinv.keysNodup).filter _
  · intro x
    rw [keys_removePrefs, List.mem_filter, hg2mem, ← hinv.keysMem x]
    simp
  · intro q hq a ha
    have := valid_removePrefs hinv.valid q hq a ha
    rw [hg2mem]
    exact this
  · intro x
    rw [hg2E x]
    by_cases hx2 : x ∈ g2.nodes
    · rw [if_pos hx2, if_pos hx2]
      by_cases hEc : preferredItem prefs x ∈ c
      · rw [if_pos hEc]
      · rw [if_neg hEc]
        have hxnc : x ∉ c := ((hg2mem x).mp hx2).2
        rw [preferredItem_removePrefs hxnc hEc]
    · rw [if_neg hx2, if_neg hx2]

/-! ## Soundness and termination of the full solver loop -/

/-- Main loop invariant theorem: with fuel at least the node count the loop
succeeds, the recorded cycles are disjoint and cover the nodes exactly
(their concatenation is a permutation of the node list), there are at most as
many iterations as nodes, and each recorded cycle is a cycle of the
then-current top-choice graph. -/
theorem solveFuel_spec :
    ∀ (fuel : Nat) (g : TTCGraph α) (prefs : List (α × List α)),
    Invariant g prefs → g.nodes.length ≤ fuel →
    ∃ cs, solveFuel fuel g prefs = some cs ∧
      List.Perm cs.flatten g.nodes ∧
      cs.length ≤ g.nodes.length ∧
      (∀ c ∈ cs, c ≠ [] ∧ c.Nodup) ∧
      SolveSound prefs cs := by
  intro fuel
  induction fuel with
  | zero =>
    intro g prefs _ hlen
    have hempty : g.nodes = [] := List.length_eq_zero.mp (Nat.le_zero.mp hlen)
    refine ⟨[], ?_, by simp [hempty], by simp, by simp, trivial⟩
    simp [solveFuel, hempty]
  | succ fuel ih =>
    intro g prefs hinv hlen
    by_cases hempty : g.nodes.isEmpty
    · refine ⟨[], ?_, ?_, by simp, by simp, trivial⟩
      · simp [solveFuel, hempty]
      · rw [List.isEmpty_iff] at hempty
        simp [hempty]
    · have hne : g.nodes ≠ [] := by
        intro hcon
        rw [hcon] at hempty
        exact hempty rfl
      obtain ⟨c, hc, hcyc, hcnd, hcsub⟩ := findCycle_spec hinv hne
      obtain ⟨g2, hg2, hinv2, hg2mem, hg2len⟩ := round_spec hinv hcnd hcsub
      have hcne : c ≠ [] := hcyc.1
      have hclen : 0 < c.length := List.length_pos.mpr hcne
      have hg2small : g2.nodes.length ≤ fuel := by omega
      obtain ⟨cs2, hcs2, hperm, hcslen, hcsnd, hsound⟩ :=
        ih g2 (removePrefs prefs c) hinv2 hg2small
      refine ⟨c :: cs2, ?_, ?_, ?_, ?_, hcyc, hsound⟩
      · rw [solveFuel, if_neg hempty, hc]
        dsimp only
        rw [hg2]
        dsimp only
        rw [hcs2]
        rfl
      · rw [List.flatten]
        have h1 : List.Perm (c ++ cs2.flatten) (c ++ g2.nodes) :=
          List.Perm.append_left c hperm
        apply h1.trans
        apply (List.perm_ext_iff_of_nodup ?_ hinv.nodesNodup).mpr
        · intro a
          rw [List.mem_append, hg2mem]
          constructor
          · rintro (h | ⟨h, _⟩)
            · exact hcsub a h
            · exact h
          · intro h
            by_cases hac : a ∈ c
            · exact Or.inl hac
            · exact Or.inr ⟨h, hac⟩
        · rw [List.nodup_append]
          refine ⟨hcnd, hinv2.nodesNodup, ?_⟩
          intro a ha ha2
          exact ((hg2mem a).mp ha2).2 ha
      · simp only [List.length_cons]
        omega
      · intro d hd
        rcases List.mem_cons.mp hd with rfl | hd2
        · exact ⟨hcne, hcnd⟩
        · exact hcsnd d hd2

/-! ## The solver entry points -/

theorem filter_eq_of_nodup {l : List α} (h : l.Nodup) (x : α) :
    l.filter (fun y => decide (y = x)) = if x ∈ l then [x] else [] := by
  induction l with
  | nil => simp
  | cons a t ih =>
    rw [List.nodup_cons] at h
    by_cases ha : a = x
    · subst ha
      rw [List.filter_cons_of_pos (by simp), if_pos (by simp)]
      have : t.filter (fun y => decide (y = a)) = [] := by
        rw [List.filter_eq_nil_iff]
        intro b hb
        simp only [decide_eq_true_eq]
        intro hcon
        exact h.1 (hcon ▸ hb)
      rw [this]
    · rw [List.filter_cons_of_neg (by simpa using ha), ih h.2]
      by_cases hx : x ∈ t
      · rw [if_pos hx, if_pos (List.mem_cons_of_mem a hx)]
      · rw [if_neg hx, if_neg (by
          intro hmem
          rcases List.mem_cons.mp hmem with rfl | hcon
          · exact ha rfl
          · exact hx hcon)]

/-- The freshly built `PreferenceGraph` state satisfies the loop invariant. -/
theorem initial_invariant {input : List (α × List α)}
    (hnd : (input.map Prod.fst).Nodup)
    (hvalid : ∀ p ∈ input, ∀ a ∈ p.2, a ∈ input.map Prod.fst) :
    Invariant (setupGraph (input.map Prod.fst) input) input := by
  refine ⟨hnd, hnd, fun x => Iff.rfl, hvalid, ?_⟩
  intro x
  rw [setupGraph, outTargets]
  dsimp only
  rw [List.filter_map]
  rw [show (fun e : α × α => decide (e.1 = x))
      ∘ (fun y => (y, preferredItem input y)) = fun y => decide (y = x) from rfl]
  rw [filter_eq_of_nodup hnd x]
  by_cases hx : x ∈ input.map Prod.fst
  · rw [if_pos hx, if_pos hx]
    rfl
  · rw [if_neg hx, if_neg hx]
    rfl

theorem preferencesNew_ok {input : List (α × List α)}
    (hvalid : ∀ p ∈ input, ∀ a ∈ p.2, a ∈ input.map Prod.fst) :
    preferencesNew input = .ok input := by
  rw [preferencesNew]
  have hfind : input.find? (fun p =>
      !(p.2.all (fun a => input.any (fun q => decide (q.1 = a))))) = none := by
    rw [List.find?_eq_none]
    intro p hp
    simp only [Bool.not_eq_true', Bool.not_eq_false]
    rw [List.all_eq_true]
    intro a ha
    rw [List.any_eq_true]
    obtain ⟨q, hq, hqa⟩ := List.mem_map.mp (hvalid p hp a ha)
    exact ⟨q, hq, by simp [hqa]⟩
  rw [hfind]

theorem preferencesNew_error {input : List (α × List α)}
    (hbad : ¬ ∀ p ∈ input, ∀ a ∈ p.2, a ∈ input.map Prod.fst) :
    ∃ v, preferencesNew input = .error (.invalidChoice v) := by
  rw [preferencesNew]
  push_neg at hbad
  obtain ⟨p, hp, a, ha, hna⟩ := hbad
  have hbadp : (fun p : α × List α =>
      !(p.2.all (fun a => input.any (fun q => decide (q.1 = a))))) p = true := by
    simp only [Bool.not_eq_true']
    rw [List.all_eq_false]
    refine ⟨a, ha, ?_⟩
    rw [Bool.not_eq_true, List.any_eq_false]
    intro q hq
    simp only [decide_eq_true_eq]
    intro hcon
    exact hna (List.mem_map.mpr ⟨q, hq, hcon⟩)
  have : (input.find? (fun p =>
      !(p.2.all (fun a => input.any (fun q => decide (q.1 = a)))))).isSome := by
    exact List.find?_isSome.mpr ⟨p, hp, hbadp⟩
  obtain ⟨q, hq⟩ := Option.isSome_iff_exists.mp this
  rw [hq]
  exact ⟨q.1, rfl⟩

/-- The full pipeline succeeds on every valid non-empty mapping and returns
cycles that partition the participants. -/
theorem solveTop_ok {input : List (α × List α)}
    (hnd : (input.map Prod.fst).Nodup)
    (hvalid : ∀ p ∈ input, ∀ a ∈ p.2, a ∈ input.map Prod.fst)
    (hne : input ≠ []) :
    ∃ cs, solveTop input = .ok cs ∧
      List.Perm cs.flatten (input.map Prod.fst) ∧
      cs.length ≤ input.length ∧
      (∀ c ∈ cs, c ≠ [] ∧ c.Nodup) ∧
      SolveSound input cs := by
  obtain ⟨cs, hcs, hperm, hlen, hnd2, hsound⟩ :=
    solveFuel_spec (setupGraph (input.map Prod.fst) input).nodes.length
      (setupGraph (input.map Prod.fst) input) input
      (initial_invariant hnd hvalid) (le_refl _)
  refine ⟨cs, ?_, hperm, ?_, hnd2, hsound⟩
  case refine_2 =>
    rw [show (setupGraph (input.map Prod.fst) input).nodes.length
        = input.length from by simp [setupGraph]] at hlen
    exact hlen
  rw [solveTop, preferencesNew_ok hvalid]
  dsimp only
  rw [if_neg (fun hcon => hne (List.isEmpty_iff.mp hcon))]
  rw [show solvePreferences (setupGraph (input.map Prod.fst) input) input
      = some cs from hcs]

/-- Claim C1 support: the paper example. -/
theorem solveTop_paper :
    solveTop paperPrefs = .ok [[3], [1, 2, 5], [6, 4]] := by
  rfl

/-- C4 part: the empty-graph error happens exactly on the empty mapping. -/
theorem solveTop_emptyGraph_iff (input : List (α × List α)) :
    solveTop input = .error .emptyGraph ↔ input = [] := by
  constructor
  · intro h
    by_contra hne
    by_cases hvalid : ∀ p ∈ input, ∀ a ∈ p.2, a ∈ input.map Prod.fst
    · rw [solveTop, preferencesNew_ok hvalid] at h
      dsimp only at h
      rw [if_neg (fun hcon => hne (List.isEmpty_iff.mp hcon))] at h
      rcases h2 : solvePreferences (setupGraph (input.map Prod.fst) input) input
        with _ | cs
      · rw [h2] at h
        simp at h
      · rw [h2] at h
        simp at h
    · obtain ⟨v, hv⟩ := preferencesNew_error hvalid
      rw [solveTop, hv] at h
      simp at h
  · rintro rfl
    rw [solveTop, preferencesNew_ok (by intro p hp; cases hp)]
    rfl

/-- C4 part: `Preferences::new` fails with `InvalidChoice` exactly when some
listed preference is not a participant key. -/
theorem preferencesNew_invalid_iff (input : List (α × List α)) :
    (∃ v, preferencesNew input = .error (.invalidChoice v)) ↔
      ¬ ∀ p ∈ input, ∀ a ∈ p.2, a ∈ input.map Prod.fst := by
  constructor
  · rintro ⟨v, hv⟩ hvalid
    rw [preferencesNew_ok hvalid] at hv
    cases hv
  · intro hbad
    exact preferencesNew_error hbad

/-! ## The induced allocation -/

theorem removePrefs_nil (prefs : List (α × List α)) : removePrefs prefs [] = prefs := by
  induction prefs with
  | nil => rfl
  | cons p t ih =>
    rw [removePrefs_cons_not_mem (by simp), ih]
    rw [show (fun x : α => decide (x ∉ ([] : List α))) = fun _ => true from
      by funext x; simp]
    rw [List.filter_true]

theorem zip_chain_aux (f : α → α) (a0 : α) : ∀ (l : List α) (x : α),
    List.Chain' (fun u w => f u = w) (x :: l) →
    ((x :: l).getLast?).map f = some a0 →
    ∀ p ∈ (x :: l).zip (l ++ [a0]), f p.1 = p.2 := by
  intro l
  induction l with
  | nil =>
    intro x _ hlast p hp
    simp only [List.nil_append, List.zip_cons_cons, List.zip_nil_right,
      List.mem_singleton] at hp
    subst hp
    simpa using hlast
  | cons b t2 ih =>
    intro x hchain hlast p hp
    rw [List.cons_append, List.zip_cons_cons] at hp
    rcases List.mem_cons.mp hp with rfl | hp2
    · exact (List.chain'_cons.mp hchain).1
    · refine ih b (List.chain'_cons.mp hchain).2 ?_ p hp2
      rw [← hlast, List.getLast?_cons_cons]

/-- Adjacent pairs of the `zip`-with-rotation used by `Allocation::from` are
successor pairs of the cycle. -/
theorem isFCycle_zip {f : α → α} {c : List α} (h : IsFCycle f c) :
    ∀ p ∈ c.zip (c.rotate 1), f p.1 = p.2 := by
  obtain ⟨hne, hchain, hwrap⟩ := h
  rcases c with _ | ⟨a, t⟩
  · cases hne rfl
  · intro p hp
    rw [show (a :: t).rotate 1 = t ++ [a] from by
      rw [List.rotate_cons_succ, List.rotate_zero]] at hp
    refine zip_chain_aux f a t a hchain ?_ p hp
    rw [hwrap]
    rfl

theorem allocLookup_append_of_not_mem {m1 m2 : List (α × α)} {x : α}
    (h : x ∉ m1.map Prod.fst) :
    allocLookup (m1 ++ m2) x = allocLookup m2 x := by
  induction m1 with
  | nil => rfl
  | cons p t ih =>
    have hpx : ¬ p.1 = x := by
      intro hcon
      exact h (List.mem_map.mpr ⟨p, List.mem_cons_self p t, hcon⟩)
    rw [List.cons_append]
    rw [show allocLookup (p :: (t ++ m2)) x = allocLookup (t ++ m2) x by
      simp [allocLookup, List.find?, hpx]]
    exact ih (fun hc => h (List.mem_map.mpr (by
      obtain ⟨q, hq, hqx⟩ := List.mem_map.mp hc
      exact ⟨q, List.mem_cons_of_mem p hq, hqx⟩)))

theorem allocLookup_append_of_some {m1 m2 : List (α × α)} {x : α} {w : α}
    (h : allocLookup m1 x = some w) :
    allocLookup (m1 ++ m2) x = some w := by
  induction m1 with
  | nil => cases h
  | cons p t ih =>
    by_cases hpx : p.1 = x
    · rw [show allocLookup (p :: t) x = some p.2 by simp [allocLookup, List.find?, hpx]] at h
      rw [List.cons_append, show allocLookup (p :: (t ++ m2)) x = some p.2 by
        simp [allocLookup, List.find?, hpx]]
      exact h
    · rw [show allocLookup (p :: t) x = allocLookup t x by
        simp [allocLookup, List.find?, hpx]] at h
      rw [List.cons_append, show allocLookup (p :: (t ++ m2)) x = allocLookup (t ++ m2) x by
        simp [allocLookup, List.find?, hpx]]
      exact ih h

theorem allocLookup_mem_keys {ps : List (α × α)} {v : α}
    (h : v ∈ ps.map Prod.fst) :
    ∃ w, allocLookup ps v = some w ∧ (v, w) ∈ ps := by
  induction ps with
  | nil => cases h
  | cons p t ih =>
    by_cases hpv : p.1 = v
    · refine ⟨p.2, by simp [allocLookup, List.find?, hpv], ?_⟩
      rw [show (v, p.2) = p from Prod.ext hpv.symm rfl]
      exact List.mem_cons_self p t
    · have h2 : v ∈ t.map Prod.fst := by
        rcases List.mem_map.mp h with ⟨q, hq, hqv⟩
        rcases List.mem_cons.mp hq with rfl | hq2
        · exact absurd hqv hpv
        · exact List.mem_map.mpr ⟨q, hq2, hqv⟩
      obtain ⟨w, hw, hmem⟩ := ih h2
      refine ⟨w, ?_, List.mem_cons_of_mem p hmem⟩
      rw [show allocLookup (p :: t) v = allocLookup t v by
        simp [allocLookup, List.find?, hpv]]
      exact hw

theorem insertA_fresh {m : List (α × α)} {k v : α} (h : k ∉ m.map Prod.fst) :
    insertA m k v = m ++ [(k, v)] := by
  rw [insertA, if_neg]
  intro hcon
  rw [List.any_eq_true] at hcon
  obtain ⟨p, hp, hpk⟩ := hcon
  exact h (List.mem_map.mpr ⟨p, hp, by simpa using hpk⟩)

theorem foldl_insertA_fresh :
    ∀ (ps : List (α × α)) (m : List (α × α)),
    (∀ p ∈ ps, p.1 ∉ m.map Prod.fst) → (ps.map Prod.fst).Nodup →
    ps.foldl (fun m2 p => insertA m2 p.1 p.2) m = m ++ ps := by
  intro ps
  induction ps with
  | nil => intro m _ _; simp
  | cons p t ih =>
    intro m hfresh hnd
    rw [List.foldl_cons, insertA_fresh (hfresh p (List.mem_cons_self p t))]
    have hnd2 : (t.map Prod.fst).Nodup := (List.nodup_cons.mp (by simpa using hnd)).2
    have hp1 : p.1 ∉ t.map Prod.fst := (List.nodup_cons.mp (by simpa using hnd)).1
    have hfresh2 : ∀ q ∈ t, q.1 ∉ (m ++ [(p.1, p.2)]).map Prod.fst := by
      intro q hq
      rw [List.map_append, List.mem_append]
      rintro (hc | hc)
      · exact hfresh q (List.mem_cons_of_mem p hq) hc
      · simp only [List.map_cons, List.map_nil, List.mem_singleton] at hc
        exact hp1 (hc ▸ List.mem_map.mpr ⟨q, hq, rfl⟩)
    rw [ih (m ++ [(p.1, p.2)]) hfresh2 hnd2]
    simp

theorem foldl_alloc : ∀ (cs : List (List α)) (m : List (α × α)),
    (∀ c ∈ cs, ∀ x ∈ c, x ∉ m.map Prod.fst) → cs.flatten.Nodup →
    cs.foldl (fun m2 c => (c.zip (c.rotate 1)).foldl
        (fun m3 p => insertA m3 p.1 p.2) m2) m
      = m ++ (cs.map (fun c => c.zip (c.rotate 1))).flatten := by
  intro cs
  induction cs with
  | nil => intro m _ _; simp
  | cons c cs2 ih =>
    intro m hfresh hnd
    have hkeys : (c.zip (c.rotate 1)).map Prod.fst = c :=
      List.map_fst_zip _ _ (by rw [List.length_rotate])
    have hcnd : c.Nodup := by
      rw [List.flatten, List.nodup_append] at hnd
      exact hnd.1
    have hdisj : ∀ x ∈ cs2.flatten, x ∉ c := by
      rw [List.flatten, List.nodup_append] at hnd
      intro x hx hxc
      exact hnd.2.2 hxc hx
    rw [List.foldl_cons]
    rw [foldl_insertA_fresh _ m
      (by
        intro p hp
        apply hfresh c (List.mem_cons_self c cs2)
        rw [← hkeys]
        exact List.mem_map_of_mem Prod.fst hp)
      (by rw [hkeys]; exact hcnd)]
    rw [ih (m ++ c.zip (c.rotate 1))
      (by
        intro d hd x hx
        rw [List.map_append, List.mem_append, hkeys]
        rintro (hc | hc)
        · exact hfresh d (List.mem_cons_of_mem c hd) x hx hc
        · exact hdisj x (List.mem_flatten.mpr ⟨d, hd, hx⟩) hc)
      (by
        rw [List.flatten, List.nodup_append] at hnd
        exact hnd.2.1)]
    simp

theorem allocationFrom_eq {cs : List (List α)} (hnd : cs.flatten.Nodup) :
    allocationFrom cs = (cs.map (fun c => c.zip (c.rotate 1))).flatten := by
  rw [allocationFrom, foldl_alloc cs [] (by simp) hnd]
  rfl

theorem allocLookup_cycle {cs : List (List α)} (hnd : cs.flatten.Nodup)
    {c : List α} (hc : c ∈ cs) {v : α} (hv : v ∈ c) :
    ∃ w, allocLookup (allocationFrom cs) v = some w ∧ (v, w) ∈ c.zip (c.rotate 1) := by
  rw [allocationFrom_eq hnd]
  obtain ⟨cs₁, cs₂, rfl⟩ := List.append_of_mem hc
  rw [List.map_append, List.map_cons, List.flatten_append, List.flatten]
  have hvkeys : v ∉ ((cs₁.map (fun c => c.zip (c.rotate 1))).flatten).map Prod.fst := by
    intro hcon
    obtain ⟨p, hp, hpv⟩ := List.mem_map.mp hcon
    obtain ⟨zs, hzs, hpz⟩ := List.mem_flatten.mp hp
    obtain ⟨c₁, hc₁, rfl⟩ := List.mem_map.mp hzs
    have hvc₁ : v ∈ c₁ := by
      rw [← List.map_fst_zip c₁ (c₁.rotate 1) (by rw [List.length_rotate]), ← hpv]
      exact List.mem_map_of_mem Prod.fst hpz
    rw [List.flatten_append, List.nodup_append] at hnd
    exact hnd.2.2 (List.mem_flatten.mpr ⟨c₁, hc₁, hvc₁⟩)
      (by rw [List.flatten]; exact List.mem_append_left _ hv)
  rw [allocLookup_append_of_not_mem hvkeys]
  have hvz : v ∈ (c.zip (c.rotate 1)).map Prod.fst := by
    rw [List.map_fst_zip c (c.rotate 1) (by rw [List.length_rotate])]
    exact hv
  obtain ⟨w, hw, hmem⟩ := allocLookup_mem_keys hvz
  exact ⟨w, allocLookup_append_of_some hw, hmem⟩

/-- Each recorded cycle is a cycle of the preferences stripped by some set of
already-removed vertices disjoint from it. -/
theorem solveSound_extract :
    ∀ (cs : List (List α)) (prefs : List (α × List α)),
    SolveSound prefs cs → cs.flatten.Nodup →
    ∀ c ∈ cs, ∃ S : List α,
      IsFCycle (preferredItem (removePrefs prefs S)) c ∧ ∀ x ∈ c, x ∉ S := by
  intro cs
  induction cs with
  | nil => intro prefs _ _ c hc; cases hc
  | cons c0 cs2 ih =>
    intro prefs hsound hnd c hc
    rcases List.mem_cons.mp hc with rfl | hc2
    · exact ⟨[], by rw [removePrefs_nil]; exact hsound.1, by simp⟩
    · obtain ⟨S2, hS2cyc, hS2mem⟩ := ih (removePrefs prefs c0) hsound.2
        (by rw [List.flatten, List.nodup_append] at hnd; exact hnd.2.1) c hc2
      refine ⟨c0 ++ S2, ?_, ?_⟩
      · rw [← removePrefs_removePrefs]
        exact hS2cyc
      · intro x hx
        rw [List.mem_append]
        rintro (hcon | hcon)
        · rw [List.flatten, List.nodup_append] at hnd
          exact hnd.2.2 hcon (List.mem_flatten.mpr ⟨c, hc2, hx⟩)
        · exact hS2mem x hx hcon

theorem filter_head_split {p : α → Bool} :
    ∀ {l : List α} {h : α}, (l.filter p).head? = some h →
    ∃ l₁ l₂, l = l₁ ++ h :: l₂ ∧ (∀ x ∈ l₁, p x = false) ∧ p h = true := by
  intro l
  induction l with
  | nil => intro h hcon; cases hcon
  | cons a t ih =>
    intro h hh
    by_cases hpa : p a
    · rw [List.filter_cons_of_pos hpa, List.head?_cons, Option.some_inj] at hh
      exact ⟨[], t, by rw [hh]; rfl, by simp, hh ▸ hpa⟩
    · rw [List.filter_cons_of_neg hpa] at hh
      obtain ⟨l₁, l₂, rfl, hl₁, hph⟩ := ih hh
      exact ⟨a :: l₁, l₂, rfl, by
        intro x hx
        rcases List.mem_cons.mp hx with rfl | hx2
        · simpa using hpa
        · exact hl₁ x hx2, hph⟩

/-- Individual rationality of the allocation induced by the solver output. -/
theorem individual_rationality {input : List (α × List α)}
    (hnd : (input.map Prod.fst).Nodup)
    (hvalid : ∀ p ∈ input, ∀ a ∈ p.2, a ∈ input.map Prod.fst)
    (hne : input ≠ []) :
    ∃ cs, solveTop input = .ok cs ∧
      ∀ v ∈ input.map Prod.fst, ∃ w, allocLookup (allocationFrom cs) v = some w ∧
        (w = v ∨ ∃ l rw rv, lookupList input v = some l ∧ w ∈ l ∧
          rank input v w = some rw ∧ rank input v v = some rv ∧ rw < rv) := by
  obtain ⟨cs, hok, hperm, _, _, hsound⟩ := solveTop_ok hnd hvalid hne
  refine ⟨cs, hok, ?_⟩
  intro v hv
  have hjoinnd : cs.flatten.Nodup := hperm.nodup_iff.mpr hnd
  have hvjoin : v ∈ cs.flatten := hperm.mem_iff.mpr hv
  obtain ⟨c, hc, hvc⟩ := List.mem_flatten.mp hvjoin
  obtain ⟨w, hw, hzip⟩ := allocLookup_cycle hjoinnd hc hvc
  refine ⟨w, hw, ?_⟩
  obtain ⟨S, hcyc, hnotS⟩ := solveSound_extract cs input hsound hjoinnd c hc
  have hfw : preferredItem (removePrefs input S) v = w := isFCycle_zip hcyc (v, w) hzip
  have hvS : v ∉ S := hnotS v hvc
  obtain ⟨l, hl⟩ := Option.isSome_iff_exists.mp (lookupList_isSome.mpr hv)
  have hl2 : lookupList (removePrefs input S) v
      = some (l.filter (fun x => decide (x ∉ S))) := by
    rw [lookupList_removePrefs_not_mem hvS, hl]
    rfl
  rcases hfiltered : (l.filter (fun x => decide (x ∉ S))).head? with _ | h
  · left
    rw [← hfw, preferredItem, hl2]
    simp only [Option.some_bind]
    rw [hfiltered]
    rfl
  · have hwh : w = h := by
      rw [← hfw, preferredItem, hl2]
      simp only [Option.some_bind]
      rw [hfiltered]
      rfl
    subst hwh
    obtain ⟨l₁, l₂, hsplit, hl₁S, hhS⟩ := filter_head_split hfiltered
    by_cases hhv : w = v
    · left
      exact hhv
    · right
      have hwS : w ∉ S := by simpa using hhS
      have hl₁S2 : ∀ x ∈ l₁, x ∈ S := by
        intro x hx
        have := hl₁S x hx
        simpa using this
      have hwl₁ : w ∉ l₁ := fun hx => hwS (hl₁S2 w hx)
      have hvl₁ : v ∉ l₁ := fun hx => hvS (hl₁S2 v hx)
      have hiw : l.indexOf w = l₁.length := by
        rw [hsplit, List.indexOf_append_of_not_mem hwl₁, List.indexOf_cons_self]
        omega
      have hiv : l₁.length < l.indexOf v := by
        rw [hsplit, List.indexOf_append_of_not_mem hvl₁,
          List.indexOf_cons_ne l₂ hhv]
        omega
      refine ⟨l, l.indexOf w, l.indexOf v, hl, ?_, ?_, ?_, ?_⟩
      · rw [hsplit]
        exact List.mem_append_right l₁ (List.mem_cons_self w l₂)
      · rw [rank, hl]
        rfl
      · rw [rank, hl]
        rfl
      · omega

/-- **C1.** On the paper example with participants `S1..S6` (encoded `1..6`)
and preferences `S1:[S3,S2,S4,S1], S2:[S3,S5,S6], S3:[S3,S1], S4:[S2,S5,S6,S4],
S5:[S1,S3,S2], S6:[S2,S4,S5,S6]`, the solver returns exactly the cycles
`{S3}`, `{S1→S2→S5→S1}`, `{S4→S6→S4}` (in this order, each up to rotation,
which is the `Cycle` equality of the source), and the induced allocation maps
`S1↦S2, S2↦S5, S3↦S3, S4↦S6, S5↦S1, S6↦S4`. -/
theorem ttc_c1_paper_example :
    ∃ cs, solveTop paperPrefs = Except.ok cs ∧
      List.Forall₂ (fun c d => cycleEqB c d = true) cs [[3], [1, 2, 5], [4, 6]] ∧
      allocLookup (allocationFrom cs) 1 = some 2 ∧
      allocLookup (allocationFrom cs) 2 = some 5 ∧
      allocLookup (allocationFrom cs) 3 = some 3 ∧
      allocLookup (allocationFrom cs) 4 = some 6 ∧
      allocLookup (allocationFrom cs) 5 = some 1 ∧
      allocLookup (allocationFrom cs) 6 = some 4 :=
  ⟨[[3], [1, 2, 5], [6, 4]], rfl,
    .cons rfl (.cons rfl (.cons rfl .nil)), rfl, rfl, rfl, rfl, rfl, rfl⟩

/-- **C2.** For every valid non-empty preference mapping (distinct keys, all
listed preferences are participants), the cycles returned by
`solve_preferences` have pairwise-disjoint vertex sets and the union of their
vertex sets is exactly the participant set. -/
theorem ttc_c2_cycles_partition {input : List (α × List α)}
    (hnd : (input.map Prod.fst).Nodup)
    (hvalid : ∀ p ∈ input, ∀ a ∈ p.2, a ∈ input.map Prod.fst)
    (hne : input ≠ []) :
    ∃ cs, solveTop input = .ok cs ∧
      List.Pairwise (fun c d => ∀ x ∈ c, x ∉ d) cs ∧
      (∀ x, (∃ c ∈ cs, x ∈ c) ↔ x ∈ input.map Prod.fst) := by
  obtain ⟨cs, hok, hperm, _, _, _⟩ := solveTop_ok hnd hvalid hne
  refine ⟨cs, hok, ?_, ?_⟩
  · have hjoinnd : cs.flatten.Nodup := hperm.nodup_iff.mpr hnd
    have h2 := (List.nodup_flatten.mp hjoinnd).2
    exact h2.imp (fun hdisj x hxc hxd => hdisj hxc hxd)
  · intro x
    rw [← hperm.mem_iff, List.mem_flatten]

/-- **C3.** For every valid non-empty preference mapping and every
participant `v`, the allocation derived from `solve_preferences` gives `v`
either itself, or an item occurring in `v`'s preference list at a rank
(`Preferences::rank`) strictly smaller than `v`'s own position in its list
(`List.indexOf` returns the list length for an absent `v`, the embedding of
rank infinity). -/
theorem ttc_c3_individual_rationality {input : List (α × List α)}
    (hnd : (input.map Prod.fst).Nodup)
    (hvalid : ∀ p ∈ input, ∀ a ∈ p.2, a ∈ input.map Prod.fst)
    (hne : input ≠ []) :
    ∃ cs, solveTop input = .ok cs ∧
      ∀ v ∈ input.map Prod.fst, ∃ w, allocLookup (allocationFrom cs) v = some w ∧
        (w = v ∨ ∃ l rw rv, lookupList input v = some l ∧ w ∈ l ∧
          rank input v w = some rw ∧ rank input v v = some rv ∧ rw < rv) :=
  individual_rationality hnd hvalid hne

/-- **C4.** `solve` fails with the empty-input error (`TTCError::EmptyGraph`)
iff the mapping has no participants; `Preferences::new` fails with the
invalid-reference error (`PrefsError::InvalidChoice`) iff some listed
preference is not a participant key; and on every non-empty mapping (with
distinct keys) that passes validation the pipeline returns `Ok` — in
particular the `AlwaysCycles` branch and the internal `unwrap`s (the
`.internal` error of the embedding) are unreachable. -/
theorem ttc_c4_error_behaviour :
    (∀ input : List (α × List α), solveTop input = .error .emptyGraph ↔ input = []) ∧
    (∀ input : List (α × List α),
      (∃ v, preferencesNew input = .error (.invalidChoice v)) ↔
        ¬ ∀ p ∈ input, ∀ a ∈ p.2, a ∈ input.map Prod.fst) ∧
    (∀ input : List (α × List α), (input.map Prod.fst).Nodup →
      (∀ p ∈ input, ∀ a ∈ p.2, a ∈ input.map Prod.fst) → input ≠ [] →
      ∃ cs, solveTop input = .ok cs) := by
  refine ⟨solveTop_emptyGraph_iff, preferencesNew_invalid_iff, ?_⟩
  intro input hnd hvalid hne
  obtain ⟨cs, hok, _⟩ := solveTop_ok hnd hvalid hne
  exact ⟨cs, hok⟩

/-- **C5.** For every valid non-empty mapping with `n` participants, the main
loop of `solve_preferences` terminates within at most `n` iterations: running
the loop with fuel `n` (one unit per iteration) succeeds, the number of
recorded cycles (= iterations) is at most `n`, and every iteration removes at
least one vertex (every recorded cycle is non-empty). -/
theorem ttc_c5_terminates_within_n {input : List (α × List α)}
    (hnd : (input.map Prod.fst).Nodup)
    (hvalid : ∀ p ∈ input, ∀ a ∈ p.2, a ∈ input.map Prod.fst) :
    ∃ cs, solveFuel (input.map Prod.fst).length
        (setupGraph (input.map Prod.fst) input) input = some cs ∧
      cs.length ≤ (input.map Prod.fst).length ∧
      ∀ c ∈ cs, c ≠ [] := by
  obtain ⟨cs, hcs, _, hlen, hnd2, _⟩ :=
    solveFuel_spec (setupGraph (input.map Prod.fst) input).nodes.length
      (setupGraph (input.map Prod.fst) input) input
      (initial_invariant hnd hvalid) (le_refl _)
  exact ⟨cs, hcs, hlen, fun c hc => (hnd2 c hc).1⟩

/-- Witness for C2: the partition property instantiated on the paper
example. -/
theorem ttc_c2_cycles_partition_witness :
    ∃ cs, solveTop paperPrefs = .ok cs ∧
      List.Pairwise (fun c d => ∀ x ∈ c, x ∉ d) cs ∧
      (∀ x, (∃ c ∈ cs, x ∈ c) ↔ x ∈ paperPrefs.map Prod.fst) :=
  ttc_c2_cycles_partition (by decide) (by decide) (by decide)

/-- Witness for C3: individual rationality instantiated on the paper
example. -/
theorem ttc_c3_individual_rationality_witness :
    ∃ cs, solveTop paperPrefs = .ok cs ∧
      ∀ v ∈ paperPrefs.map Prod.fst,
        ∃ w, allocLookup (allocationFrom cs) v = some w ∧
          (w = v ∨ ∃ l rw rv, lookupList paperPrefs v = some l ∧ w ∈ l ∧
            rank paperPrefs v w = some rw ∧ rank paperPrefs v v = some rv ∧ rw < rv) :=
  ttc_c3_individual_rationality (by decide) (by decide) (by decide)

/-- Witness for C4: the three error-behaviour parts instantiated at concrete
inputs (the empty mapping, a mapping with a dangling reference, and the valid
paper example). -/
theorem ttc_c4_error_behaviour_witness :
    solveTop ([] : List (Nat × List Nat)) = .error .emptyGraph ∧
    (∃ v, preferencesNew [(1, [2])] = .error (.invalidChoice v)) ∧
    (∃ cs, solveTop paperPrefs = Except.ok cs) :=
  ⟨(ttc_c4_error_behaviour.1 []).mpr rfl,
   (ttc_c4_error_behaviour.2.1 [(1, [2])]).mpr (by decide),
   ttc_c4_error_behaviour.2.2 paperPrefs (by decide) (by decide) (by decide)⟩

/-- Witness for C5: termination within `n` iterations on the paper example. -/
theorem ttc_c5_terminates_within_n_witness :
    ∃ cs, solveFuel (paperPrefs.map Prod.fst).length
        (setupGraph (paperPrefs.map Prod.fst) paperPrefs) paperPrefs = some cs ∧
      cs.length ≤ (paperPrefs.map Prod.fst).length ∧
      ∀ c ∈ cs, c ≠ [] :=
  ttc_c5_terminates_within_n (by decide) (by decide)

/-! ## Cycle equality -/

/-- For a non-empty first cycle, the source's `PartialEq` coincides with
rotation equivalence. -/
theorem cycleEqB_iff {c1 c2 : List α} (h : c1 ≠ []) :
    cycleEqB c1 c2 = true ↔ c1.IsRotated c2 := by
  rw [cycleEqB]
  by_cases hl : c1.length = c2.length
  · rw [if_neg (by simpa using hl)]
    rw [List.any_eq_true]
    constructor
    · rintro ⟨i, _, heq⟩
      exact ⟨i, by simpa using heq⟩
    · intro hrot
      obtain ⟨n, hn, heq⟩ := List.isRotated_iff_mod.mp hrot
      rcases Nat.lt_or_ge n c1.length with hlt | hge
      · exact ⟨n, List.mem_range.mpr hlt, by simpa using heq⟩
      · have hnl : n = c1.length := le_antisymm hn hge
        subst hnl
        rw [List.rotate_length] at heq
        exact ⟨0, List.mem_range.mpr (List.length_pos.mpr h),
          by simp [List.rotate_zero, heq]⟩
  · rw [if_pos (by simpa using hl)]
    constructor
    · intro hcon
      cases hcon
    · intro hrot
      exact absurd hrot.perm.length_eq hl

/-- A cycle of length `> 2` with pairwise-distinct values is never equal to
its reversal. -/
theorem cycleEqB_reverse_false {c : List α} (hnd : c.Nodup) (hlen : 2 < c.length) :
    cycleEqB c c.reverse = false := by
  by_contra hcon
  rw [Bool.not_eq_false] at hcon
  have hne : c ≠ [] := by
    intro h
    rw [h] at hlen
    simp at hlen
  obtain ⟨n, hn, heq⟩ := List.isRotated_iff_mod.mp ((cycleEqB_iff hne).mp hcon)
  have h0r : 0 < (c.rotate n).length := by
    rw [List.length_rotate]
    omega
  have h1r : 1 < (c.rotate n).length := by
    rw [List.length_rotate]
    omega
  have h0v : 0 < c.reverse.length := by rw [← heq]; exact h0r
  have h1v : 1 < c.reverse.length := by rw [← heq]; exact h1r
  have e0 : (c.rotate n)[0] = (c.reverse)[0] := by simp only [heq]
  have e1 : (c.rotate n)[1] = (c.reverse)[1] := by simp only [heq]
  rw [List.getElem_rotate, List.getElem_reverse] at e0 e1
  have i0 : (0 + n) % c.length = c.length - 1 - 0 :=
    (List.Nodup.getElem_inj_iff hnd).mp e0
  have i1 : (1 + n) % c.length = c.length - 1 - 1 :=
    (List.Nodup.getElem_inj_iff hnd).mp e1
  rw [Nat.zero_add] at i0
  have h1mod : (1 : Nat) % c.length = 1 := Nat.mod_eq_of_lt (by omega)
  have hmod2 : (1 + n) % c.length = 0 := by
    rw [Nat.add_mod 1 n c.length, h1mod, i0,
      show 1 + (c.length - 1 - 0) = c.length from by omega]
    exact Nat.mod_self _
  rw [hmod2] at i1
  omega

/-- **C9 counterexample.** The claim fails as stated: for empty value lists
the source's `PartialEq` returns `false` although the empty sequence is a
rotation of itself, and a length-4 cycle with repeated values equals its
reversal. -/
theorem ttc_c9_counterexample :
    ¬ (cycleEqB ([] : List Nat) [] = true ↔ ([] : List Nat).IsRotated []) ∧
    2 < ([1, 2, 1, 2] : List Nat).length ∧
    cycleEqB ([1, 2, 1, 2] : List Nat) ([1, 2, 1, 2] : List Nat).reverse = true := by
  refine ⟨?_, by decide, by decide⟩
  intro hiff
  have h1 : ([] : List Nat).IsRotated [] := ⟨0, rfl⟩
  have h2 := hiff.mpr h1
  cases h2

/-- **C9 (amended).** For every pair of cycles whose first value sequence is
non-empty, the source's `Cycle` equality holds iff the second value sequence
is a rotation of the first; and the reversal of a duplicate-free cycle of
length greater than 2 is not equal to the cycle. -/
theorem ttc_c9_rotation_equality :
    (∀ c1 c2 : List α, c1 ≠ [] → (cycleEqB c1 c2 = true ↔ c1.IsRotated c2)) ∧
    (∀ c : List α, c.Nodup → 2 < c.length → cycleEqB c c.reverse = false) :=
  ⟨fun _ _ h => cycleEqB_iff h, fun _ hnd hlen => cycleEqB_reverse_false hnd hlen⟩

/-- Witness for C9: the amended equality on concrete cycles. -/
theorem ttc_c9_rotation_equality_witness :
    cycleEqB ([1, 2, 5] : List Nat) [5, 1, 2] = true ∧
    cycleEqB ([1, 2, 3] : List Nat) ([1, 2, 3] : List Nat).reverse = false :=
  ⟨(ttc_c9_rotation_equality.1 [1, 2, 5] [5, 1, 2] (by decide)).mpr ⟨2, by decide⟩,
   ttc_c9_rotation_equality.2 [1, 2, 3] (by decide) (by decide)⟩

end TTC

namespace Store

theorem updateJobStatus_absent (jobs : List (Nat × Job)) (address : Nat)
    (st : JobStatus) (err : Option String) (t : Option Int)
    (h : address ∉ jobs.map Prod.fst) :
    (updateJobStatus jobs address st err t).1 = jobs := by
  rw [updateJobStatus]
  dsimp only
  rw [show jobs.map (fun r =>
      if r.1 = address then
        (r.1, { r.2 with status := st, error := err, completedAt := t })
      else r) = jobs.map id from List.map_congr_left ?_, List.map_id]
  intro r hr
  rw [if_neg (fun hc => h (List.mem_map.mpr ⟨r, hr, hc⟩))]
  rfl

theorem lookupJob_cons_eq {r : Nat × Job} {rs : List (Nat × Job)} {address : Nat}
    (h : r.1 = address) : lookupJob (r :: rs) address = some r.2 := by
  simp [lookupJob, List.find?, h]

theorem lookupJob_cons_ne {r : Nat × Job} {rs : List (Nat × Job)} {address : Nat}
    (h : ¬ r.1 = address) : lookupJob (r :: rs) address = lookupJob rs address := by
  simp [lookupJob, List.find?, h]

theorem updateJobStatus_cons (r : Nat × Job) (rs : List (Nat × Job))
    (address : Nat) (st : JobStatus) (err : Option String) (t : Option Int) :
    (updateJobStatus (r :: rs) address st err t).1
      = (if r.1 = address
          then (r.1, { r.2 with status := st, error := err, completedAt := t })
          else r) :: (updateJobStatus rs address st err t).1 := rfl

theorem lookupJob_updateJobStatus {jobs : List (Nat × Job)} {address : Nat}
    (st : JobStatus) (err : Option String) (t : Option Int) {j : Job}
    (h : lookupJob jobs address = some j) :
    lookupJob (updateJobStatus jobs address st err t).1 address
      = some { j with status := st, error := err, completedAt := t } := by
  induction jobs with
  | nil => cases h
  | cons r rs ih =>
    rw [updateJobStatus_cons]
    by_cases hr : r.1 = address
    · rw [lookupJob_cons_eq hr, Option.some_inj] at h
      subst h
      rw [if_pos hr]
      exact lookupJob_cons_eq hr
    · rw [lookupJob_cons_ne hr] at h
      rw [if_neg hr, lookupJob_cons_ne hr]
      exact ih h

/-- **C7 counterexample.** The claim fails as stated on the code: with no row
for the address, `update_job_status` returns `Ok` (no `NotFound`), and on a
row already in the terminal state `Completed` it happily rewrites the status
back to `Created` and returns `Ok` (no `IllegalTransition`, and a terminal
state is left). -/
theorem store_c7_counterexample :
    (updateJobStatus [] 7 .inProgress none none).2 = .ok () ∧
    (updateJobStatus
        [(7, { blockNumber := 1, blockTimestamp := 0, status := .completed,
               error := none, completedAt := some 5 })]
        7 .created none none).2 = .ok () ∧
    lookupJob (updateJobStatus
        [(7, { blockNumber := 1, blockTimestamp := 0, status := .completed,
               error := none, completedAt := some 5 })]
        7 .created none none).1 7
      = some { blockNumber := 1, blockTimestamp := 0, status := .created,
               error := none, completedAt := none } :=
  ⟨rfl, rfl, rfl⟩

/-- **C7 (amended).** `update_job_status` — the implementation behind
`setInProgress`, `setCompleted` and `setError` — performs an unconditional
`UPDATE`: it always returns `Ok` (it never fails with `NotFound` or
`IllegalTransition`), it leaves the table unchanged when no row matches the
address, and it overwrites the status, error and completion time of a
matching row whatever its current status — in particular it can change a row
already in a terminal state. -/
theorem store_c7_update_unchecked :
    ∀ (jobs : List (Nat × Job)) (address : Nat) (st : JobStatus)
      (err : Option String) (t : Option Int),
    (updateJobStatus jobs address st err t).2 = .ok () ∧
    (address ∉ jobs.map Prod.fst → (updateJobStatus jobs address st err t).1 = jobs) ∧
    (∀ j, lookupJob jobs address = some j →
      lookupJob (updateJobStatus jobs address st err t).1 address
        = some { j with status := st, error := err, completedAt := t }) := by
  intro jobs address st err t
  exact ⟨rfl, updateJobStatus_absent jobs address st err t,
    fun _ h => lookupJob_updateJobStatus st err t h⟩

/-- Witness for C7 (amended): no-op on an absent address, unchecked overwrite
of an in-progress row. -/
theorem store_c7_update_unchecked_witness :
    (updateJobStatus [] 3 .completed none none).1 = [] ∧
    lookupJob (updateJobStatus
        [(4, { blockNumber := 2, blockTimestamp := 1, status := .inProgress,
               error := none, completedAt := none })]
        4 .errored (some "boom") (some 9)).1 4
      = some { blockNumber := 2, blockTimestamp := 1, status := .errored,
               error := some "boom", completedAt := some 9 } :=
  ⟨(store_c7_update_unchecked [] 3 .completed none none).2.1 (by decide),
   (store_c7_update_unchecked
      [(4, { blockNumber := 2, blockTimestamp := 1, status := .inProgress,
             error := none, completedAt := none })]
      4 .errored (some "boom") (some 9)).2.2 _ rfl⟩

/-- **C8.** The `prove_impl` of `monitor/server/bin/prover_server.rs` never
touches the `proofs` table: on prover success it only marks the job
Completed (so afterwards the job is Completed while no Proof row exists,
contradicting "a Proof row exists iff the Job is Completed"), and on prover
error it marks the job Errored with the error text.  The sibling
`prove_impl` of `prover/server/src/main.rs` implements the specified
behaviour: it inserts the Proof row and then marks the job Completed. -/
theorem store_c8_proof_row_never_written :
    (∀ (db : DB) (address : Nat) (now : Int) (result : Except String ProofRow),
      (proveImplMonitorBin db address now result).1.proofs = db.proofs) ∧
    (∀ (db : DB) (address : Nat) (now : Int) (p : ProofRow),
      (proveImplMonitorBin db address now (.ok p)).1.jobs
        = (updateJobStatus db.jobs address .completed none (some now)).1) ∧
    (∀ (db : DB) (address : Nat) (now : Int) (e : String),
      (proveImplMonitorBin db address now (.error e)).1.jobs
        = (updateJobStatus db.jobs address .errored (some e) (some now)).1) ∧
    (∀ (db : DB) (address : Nat) (now : Int) (p : ProofRow),
      address ∉ db.proofs.map Prod.fst →
      (proveImplProverServer db address now (.ok p)).1.proofs
          = db.proofs ++ [(address, p)] ∧
      (proveImplProverServer db address now (.ok p)).1.jobs
        = (updateJobStatus db.jobs address .completed none (some now)).1) := by
  refine ⟨?_, ?_, ?_, ?_⟩
  · intro db address now result
    cases result <;> rfl
  · intro db address now p
    rfl
  · intro db address now e
    rfl
  · intro db address now p hfresh
    have hcp : createProof db.proofs address p = (db.proofs ++ [(address, p)], .ok ()) := by
      rw [createProof, if_neg]
      intro hcon
      rw [List.any_eq_true] at hcon
      obtain ⟨q, hq, hqa⟩ := hcon
      exact hfresh (List.mem_map.mpr ⟨q, hq, by simpa using hqa⟩)
    constructor
    · show (match createProof db.proofs address p with
        | (proofs2, .error _) => ({ db with proofs := proofs2 },
            (.error "create_proof failed" : Except String ProofRow))
        | (proofs2, .ok _) =>
          ({ jobs := (updateJobStatus db.jobs address .completed none (some now)).1
           , proofs := proofs2 }, .ok p)).1.proofs = db.proofs ++ [(address, p)]
      rw [hcp]
    · show (match createProof db.proofs address p with
        | (proofs2, .error _) => ({ db with proofs := proofs2 },
            (.error "create_proof failed" : Except String ProofRow))
        | (proofs2, .ok _) =>
          ({ jobs := (updateJobStatus db.jobs address .completed none (some now)).1
           , proofs := proofs2 }, .ok p)).1.jobs
        = (updateJobStatus db.jobs address .completed none (some now)).1
      rw [hcp]

/-- Witness for C8: the failing input of the code bug.  A job in state
`Created` for address 1 and an empty `proofs` table; the prover returns a
(journal, seal) pair; afterwards the `monitor/server/bin` variant has marked
the job Completed yet the `proofs` table is still empty, while the
`prover/server` variant has written the Proof row. -/
theorem store_c8_proof_row_never_written_witness :
    (proveImplMonitorBin
        { jobs := [(1, { blockNumber := 10, blockTimestamp := 0, status := .created,
                         error := none, completedAt := none })], proofs := [] }
        1 99 (.ok { proofBytes := [7], sealBytes := [8] })).1.proofs = [] ∧
    (lookupJob (proveImplMonitorBin
        { jobs := [(1, { blockNumber := 10, blockTimestamp := 0, status := .created,
                         error := none, completedAt := none })], proofs := [] }
        1 99 (.ok { proofBytes := [7], sealBytes := [8] })).1.jobs 1).map Job.status
      = some .completed ∧
    (proveImplProverServer
        { jobs := [(1, { blockNumber := 10, blockTimestamp := 0, status := .created,
                         error := none, completedAt := none })], proofs := [] }
        1 99 (.ok { proofBytes := [7], sealBytes := [8] })).1.proofs
      = [(1, { proofBytes := [7], sealBytes := [8] })] :=
  ⟨store_c8_proof_row_never_written.1 _ 1 99 _, rfl,
   (store_c8_proof_row_never_written.2.2.2 _ 1 99 _ (by decide)).1⟩

end Store

namespace Guest

/-! ## Theorems about the guest program (C10) -/

theorem mapM_option_mem {β γ : Type} (f : β → Option γ) :
    ∀ {xs : List β} {ys : List γ}, xs.mapM f = some ys →
      ∀ x ∈ xs, ∃ y, f x = some y ∧ y ∈ ys := by
  intro xs
  induction xs with
  | nil => intro ys h x hx; cases hx
  | cons a as ih =>
    intro ys h x hx
    rw [List.mapM_cons] at h
    cases hfa : f a with
    | none => rw [hfa] at h; cases h
    | some y0 =>
      rw [hfa] at h
      cases hms : as.mapM f with
      | none => rw [hms] at h; cases h
      | some ys0 =>
        rw [hms] at h
        simp only [Option.bind_eq_bind, Option.some_bind, Option.pure_def,
          Option.some_inj] at h
        subst h
        rcases List.mem_cons.mp hx with hxa | hxs
        · exact ⟨y0, hxa ▸ hfa, List.mem_cons_self y0 ys0⟩
        · obtain ⟨y, hy, hmem⟩ := ih hms x hxs
          exact ⟨y, hy, List.mem_cons_of_mem y0 hmem⟩

/-- C10: in the guest program the `newOwner` committed for each reallocation
is taken from the owner dictionary built out of the *host-supplied*
preferences input (read via `env::read`), not from the owner fields of the
verified on-chain `getAllTokenPreferences` result.  First conjunct: whenever
`reallocate` succeeds, the solver ran on the verified preferences and every
allocation pair `(v, A v)` is committed as
`{ tokenId := A v, newOwner := o }` where `o` is the entry for `v` in the
supplied dictionary.  Second and third conjuncts: two executions with the
identical verified chain state `chainTwoTokens` but different host-supplied
owner fields commit different (both well-defined) journals.  Fourth
conjunct: the guest panics when a participant is missing from the
host-supplied dictionary. -/
theorem guest_c10_owner_dict_from_host :
    (∀ (dict : List (Nat × Nat)) (chainPrefs : List TokenPreferences)
        (rs : List TokenReallocation),
      reallocate dict chainPrefs = some rs →
      ∃ cs, TTC.solveTop (chainPrefs.map (fun tp => (tp.tokenId, tp.preferences)))
              = .ok cs ∧
        ∀ q ∈ TTC.allocationFrom cs, ∃ o, TTC.allocLookup dict q.1 = some o ∧
          ({ tokenId := q.2, newOwner := o } : TokenReallocation) ∈ rs) ∧
    guestMain 0 77 chainTwoTokens chainTwoTokens ≠
      guestMain 0 77 hostAltOwner chainTwoTokens ∧
    (guestMain 0 77 chainTwoTokens chainTwoTokens).isSome = true ∧
    guestMain 0 77 [] chainTwoTokens = none := by
  refine ⟨?_, by decide, by decide, by decide⟩
  intro dict chainPrefs rs h
  unfold reallocate at h
  cases hcs : TTC.solveTop (chainPrefs.map (fun tp => (tp.tokenId, tp.preferences))) with
  | error e => rw [hcs] at h; cases h
  | ok cs =>
    rw [hcs] at h
    dsimp only at h
    refine ⟨cs, rfl, ?_⟩
    intro q hq
    obtain ⟨y, hy, hmem⟩ := mapM_option_mem _ h q hq
    rw [Option.map_eq_some'] at hy
    obtain ⟨o, ho, hyo⟩ := hy
    exact ⟨o, ho, hyo ▸ hmem⟩

theorem guest_c10_owner_dict_from_host_witness :
    ∃ cs, TTC.solveTop (chainTwoTokens.map (fun tp => (tp.tokenId, tp.preferences)))
            = .ok cs ∧
      ∀ q ∈ TTC.allocationFrom cs, ∃ o,
        TTC.allocLookup (buildOwnerDict chainTwoTokens) q.1 = some o ∧
          ({ tokenId := q.2, newOwner := o } : TokenReallocation) ∈
            [{ tokenId := 2, newOwner := 10 }, { tokenId := 1, newOwner := 20 }] :=
  guest_c10_owner_dict_from_host.1 (buildOwnerDict chainTwoTokens) chainTwoTokens
    [{ tokenId := 2, newOwner := 10 }, { tokenId := 1, newOwner := 20 }] rfl

end Guest

namespace TTC

variable {α : Type} [DecidableEq α]

/-! ## Cycles of an out-degree-one graph (towards C6) -/

theorem get_congr_idx {l : List α} {i j : Nat} (hij : i = j)
    (hi : i < l.length) (hj : j < l.length) :
    l.get ⟨i, hi⟩ = l.get ⟨j, hj⟩ := by
  cases hij
  rfl

theorem isFCycle_get_succ {f : α → α} {c : List α} (h : IsFCycle f c) :
    ∀ (i : Nat) (hi : i < c.length) (hi2 : (i + 1) % c.length < c.length),
      f (c.get ⟨i, hi⟩) = c.get ⟨(i + 1) % c.length, hi2⟩ := by
  obtain ⟨hne, hchain, hwrap⟩ := h
  intro i hi hi2
  by_cases hlast : i + 1 = c.length
  · have h0 : (i + 1) % c.length = 0 := by rw [hlast]; exact Nat.mod_self _
    have hgl : c.getLast? = some (c.get ⟨i, hi⟩) := by
      rw [List.getLast?_eq_getElem?, show c.length - 1 = i from by omega,
        List.getElem?_eq_getElem hi]
      rfl
    have hhd : c.head? = some (c.get ⟨(i + 1) % c.length, hi2⟩) := by
      have h00 : 0 < c.length := by omega
      rw [List.head?_eq_getElem?, List.getElem?_eq_getElem h00]
      exact congrArg some (get_congr_idx h0.symm h00 hi2)
    rw [hgl, Option.map_some', hhd] at hwrap
    exact Option.some_inj.mp hwrap
  · have hi1 : i + 1 < c.length := by omega
    rw [List.chain'_iff_get] at hchain
    exact (hchain i (by omega)).trans
      (get_congr_idx (Nat.mod_eq_of_lt hi1).symm hi1 hi2)

theorem isFCycle_of_get {f : α → α} {c : List α} (hne : c ≠ [])
    (h : ∀ (i : Nat) (hi : i < c.length) (hi2 : (i + 1) % c.length < c.length),
      f (c.get ⟨i, hi⟩) = c.get ⟨(i + 1) % c.length, hi2⟩) : IsFCycle f c := by
  have hlen : 0 < c.length := List.length_pos.mpr hne
  refine ⟨hne, ?_, ?_⟩
  · rw [List.chain'_iff_get]
    intro i hi
    have hi' : i < c.length := by omega
    have hmod : (i + 1) % c.length = i + 1 := Nat.mod_eq_of_lt (by omega)
    exact (h i hi' (by rw [hmod]; omega)).trans
      (get_congr_idx hmod (by rw [hmod]; omega) (by omega))
  · have hlast : c.getLast? = some (c.get ⟨c.length - 1, by omega⟩) := by
      rw [List.getLast?_eq_getElem?, List.getElem?_eq_getElem (by omega)]
      rfl
    have hhd : c.head? = some (c.get ⟨0, hlen⟩) := by
      rw [List.head?_eq_getElem?, List.getElem?_eq_getElem hlen]
      rfl
    have hwrapmod : (c.length - 1 + 1) % c.length = 0 := by
      rw [show c.length - 1 + 1 = c.length from by omega]
      exact Nat.mod_self _
    rw [hlast, hhd, Option.map_some']
    exact congrArg some
      ((h (c.length - 1) (by omega) (by rw [hwrapmod]; omega)).trans
        (get_congr_idx hwrapmod (by rw [hwrapmod]; omega) hlen))

theorem isFCycle_rotate {f : α → α} {c : List α} (h : IsFCycle f c) (n : Nat) :
    IsFCycle f (c.rotate n) := by
  have hne := h.1
  have hlen : 0 < c.length := List.length_pos.mpr hne
  have hlenr : (c.rotate n).length = c.length := List.length_rotate c n
  apply isFCycle_of_get
  · intro hcon
    apply hne
    have h2 := congrArg List.length hcon
    rw [List.length_rotate] at h2
    exact List.length_eq_zero.mp h2
  · intro i hi hi2
    have e1 : (c.rotate n).get ⟨i, hi⟩
        = c.get ⟨(i + n) % c.length, Nat.mod_lt _ hlen⟩ :=
      List.getElem_rotate c n i hi
    have e2 := isFCycle_get_succ h ((i + n) % c.length)
      (Nat.mod_lt _ hlen) (Nat.mod_lt _ hlen)
    have e3 : (c.rotate n).get ⟨(i + 1) % (c.rotate n).length, hi2⟩
        = c.get ⟨((i + 1) % (c.rotate n).length + n) % c.length, Nat.mod_lt _ hlen⟩ :=
      List.getElem_rotate c n _ hi2
    rw [e1, e2, e3]
    apply get_congr_idx
    rw [hlenr, Nat.mod_add_mod, Nat.mod_add_mod]
    exact congrArg (fun t => t % c.length) (by omega)

theorem isFCycle_mem_map {f : α → α} {c : List α} (h : IsFCycle f c) :
    ∀ x ∈ c, f x ∈ c := by
  intro x hx
  obtain ⟨⟨i, hi⟩, rfl⟩ := List.mem_iff_get.mp hx
  have hlen : 0 < c.length := by omega
  rw [isFCycle_get_succ h i hi (Nat.mod_lt _ hlen)]
  exact List.get_mem c _ _

theorem isFCycle_iterate {f : α → α} {c : List α} (h : IsFCycle f c)
    (h0 : 0 < c.length) :
    ∀ k, f^[k] (c.get ⟨0, h0⟩) = c.get ⟨k % c.length, Nat.mod_lt _ h0⟩ := by
  intro k
  induction k with
  | zero => exact get_congr_idx (Nat.zero_mod _).symm h0 (Nat.mod_lt _ h0)
  | succ k ih =>
    rw [Function.iterate_succ_apply', ih,
      isFCycle_get_succ h (k % c.length) (Nat.mod_lt _ h0) (Nat.mod_lt _ h0)]
    exact get_congr_idx (by rw [Nat.mod_add_mod]) (Nat.mod_lt _ h0) (Nat.mod_lt _ h0)

theorem isFCycle_dvd_of_head {f : α → α} {a b : List α}
    (ha : IsFCycle f a) (hb : IsFCycle f b) (hand : a.Nodup)
    (ha0 : 0 < a.length) (hb0 : 0 < b.length)
    (hh : a.get ⟨0, ha0⟩ = b.get ⟨0, hb0⟩) : a.length ∣ b.length := by
  have h1 := isFCycle_iterate ha ha0 b.length
  have h2 := isFCycle_iterate hb hb0 b.length
  rw [hh, h2] at h1
  have h3 : b.get ⟨b.length % b.length, Nat.mod_lt _ hb0⟩ = b.get ⟨0, hb0⟩ :=
    get_congr_idx (Nat.mod_self _) (Nat.mod_lt _ hb0) hb0
  rw [h3, ← hh] at h1
  have h4 : (⟨0, ha0⟩ : Fin a.length) = ⟨b.length % a.length, Nat.mod_lt _ ha0⟩ :=
    (List.Nodup.get_inj_iff hand).mp h1
  have h5 : b.length % a.length = 0 := (congrArg Fin.val h4).symm
  exact Nat.dvd_of_mod_eq_zero h5

theorem isFCycle_eq_of_head {f : α → α} {c d : List α}
    (hc : IsFCycle f c) (hd : IsFCycle f d) (hcnd : c.Nodup) (hdnd : d.Nodup)
    (hc0 : 0 < c.length) (hd0 : 0 < d.length)
    (hhead : c.get ⟨0, hc0⟩ = d.get ⟨0, hd0⟩) : c = d := by
  have hdvd1 := isFCycle_dvd_of_head hc hd hcnd hc0 hd0 hhead
  have hdvd2 := isFCycle_dvd_of_head hd hc hdnd hd0 hc0 hhead.symm
  have hlen : c.length = d.length := Nat.dvd_antisymm hdvd1 hdvd2
  apply List.ext_getElem hlen
  intro i h1 h2
  have e1 : c.get ⟨i, h1⟩ = f^[i] (c.get ⟨0, hc0⟩) := by
    rw [isFCycle_iterate hc hc0 i]
    exact get_congr_idx (Nat.mod_eq_of_lt h1).symm h1 (Nat.mod_lt _ hc0)
  have e2 : d.get ⟨i, h2⟩ = f^[i] (d.get ⟨0, hd0⟩) := by
    rw [isFCycle_iterate hd hd0 i]
    exact get_congr_idx (Nat.mod_eq_of_lt h2).symm h2 (Nat.mod_lt _ hd0)
  show c.get ⟨i, h1⟩ = d.get ⟨i, h2⟩
  rw [e1, e2, hhead]

theorem isFCycle_shared_rotated {f : α → α} {c d : List α}
    (hc : IsFCycle f c) (hd : IsFCycle f d) (hcnd : c.Nodup) (hdnd : d.Nodup)
    {v : α} (hvc : v ∈ c) (hvd : v ∈ d) : List.IsRotated c d := by
  have hic : c.indexOf v < c.length := List.indexOf_lt_length.mpr hvc
  have hid : d.indexOf v < d.length := List.indexOf_lt_length.mpr hvd
  have hc0 : 0 < (c.rotate (c.indexOf v)).length := by
    rw [List.length_rotate]; omega
  have hd0 : 0 < (d.rotate (d.indexOf v)).length := by
    rw [List.length_rotate]; omega
  have hhc : (c.rotate (c.indexOf v)).get ⟨0, hc0⟩ = v := by
    refine (List.getElem_rotate c (c.indexOf v) 0 hc0).trans ?_
    refine (get_congr_idx (show (0 + c.indexOf v) % c.length = c.indexOf v from by
      rw [Nat.zero_add]; exact Nat.mod_eq_of_lt hic)
      (Nat.mod_lt _ (by omega)) hic).trans ?_
    exact List.getElem_indexOf hic
  have hhd : (d.rotate (d.indexOf v)).get ⟨0, hd0⟩ = v := by
    refine (List.getElem_rotate d (d.indexOf v) 0 hd0).trans ?_
    refine (get_congr_idx (show (0 + d.indexOf v) % d.length = d.indexOf v from by
      rw [Nat.zero_add]; exact Nat.mod_eq_of_lt hid)
      (Nat.mod_lt _ (by omega)) hid).trans ?_
    exact List.getElem_indexOf hid
  have heq : c.rotate (c.indexOf v) = d.rotate (d.indexOf v) :=
    isFCycle_eq_of_head (isFCycle_rotate hc _) (isFCycle_rotate hd _)
      (List.nodup_rotate.mpr hcnd) (List.nodup_rotate.mpr hdnd)
      hc0 hd0 (hhc.trans hhd.symm)
  have h1 : List.IsRotated c (c.rotate (c.indexOf v)) :=
    (List.IsRotated.forall c _).symm
  have h2 : List.IsRotated d (d.rotate (d.indexOf v)) :=
    (List.IsRotated.forall d _).symm
  refine h1.trans ?_
  rw [heq]
  exact h2.symm

theorem isFCycle_congr_mem {f g : α → α} {c : List α}
    (hfg : ∀ x ∈ c, f x = g x) (h : IsFCycle f c) : IsFCycle g c := by
  apply isFCycle_of_get h.1
  intro i hi hi2
  rw [← hfg (c.get ⟨i, hi⟩) (List.get_mem c _ _)]
  exact isFCycle_get_succ h i hi hi2

theorem isFCycle_removePrefs {prefs : List (α × List α)} {chosen D : List α}
    (hD : IsFCycle (preferredItem prefs) D) (hdisj : ∀ x ∈ D, x ∉ chosen) :
    IsFCycle (preferredItem (removePrefs prefs chosen)) D := by
  apply isFCycle_congr_mem ?_ hD
  intro x hx
  exact (preferredItem_removePrefs (hdisj x hx)
    (hdisj _ (isFCycle_mem_map hD x hx))).symm

end TTC

namespace TTC

variable {α : Type} [DecidableEq α]

/-! ## Lookup congruence and fuel irrelevance (towards C6) -/

theorem mem_lookupList {prefs : List (α × List α)} {v : α} {l : List α}
    (hnd : (prefs.map Prod.fst).Nodup) (hmem : (v, l) ∈ prefs) :
    lookupList prefs v = some l := by
  induction prefs with
  | nil => cases hmem
  | cons p t ih =>
    rw [List.map_cons, List.nodup_cons] at hnd
    rcases List.mem_cons.mp hmem with heq | hmem2
    · rw [← heq]
      simp [lookupList, List.find?]
    · have hpv : ¬ p.1 = v := by
        intro hcon
        exact hnd.1 (hcon ▸ List.mem_map.mpr ⟨(v, l), hmem2, rfl⟩)
      rw [show lookupList (p :: t) v = lookupList t v from by
        simp [lookupList, List.find?, hpv]]
      exact ih hnd.2 hmem2

theorem lookupList_perm {p1 p2 : List (α × List α)}
    (hnd : (p1.map Prod.fst).Nodup) (hperm : List.Perm p1 p2) (v : α) :
    lookupList p1 v = lookupList p2 v := by
  have hnd2 : (p2.map Prod.fst).Nodup := ((hperm.map Prod.fst).nodup_iff).mp hnd
  rcases h1 : lookupList p1 v with _ | l1
  · rcases h2 : lookupList p2 v with _ | l2
    · rfl
    · have hmem1 : (v, l2) ∈ p1 := hperm.mem_iff.mpr (lookupList_mem h2)
      rw [mem_lookupList hnd hmem1] at h1
      cases h1
  · have hm2 : (v, l1) ∈ p2 := hperm.mem_iff.mp (lookupList_mem h1)
    rw [mem_lookupList hnd2 hm2]

theorem lookupList_removePrefs_congr {p1 p2 : List (α × List α)}
    (h : ∀ v, lookupList p1 v = lookupList p2 v) (chosen : List α) (v : α) :
    lookupList (removePrefs p1 chosen) v = lookupList (removePrefs p2 chosen) v := by
  by_cases hv : v ∈ chosen
  · rw [lookupList_removePrefs_mem hv, lookupList_removePrefs_mem hv]
  · rw [lookupList_removePrefs_not_mem hv, lookupList_removePrefs_not_mem hv, h v]

theorem cycleMultiset_cons (c : List α) (cs : List (List α)) :
    cycleMultiset (c :: cs) = (c : Cycle α) ::ₘ cycleMultiset cs := rfl

theorem solveFuel_nil {g : TTCGraph α} (h : g.nodes = [])
    (prefs : List (α × List α)) (fuel : Nat) :
    solveFuel fuel g prefs = some [] := by
  cases fuel <;> simp [solveFuel, h]

theorem solveFuel_succ_eq {g : TTCGraph α} {prefs : List (α × List α)} {C : List α}
    {g2 : TTCGraph α} (hempty : ¬ g.nodes.isEmpty = true)
    (hC : findCycle g = some C)
    (hg2 : processCycle (removePrefs prefs C) g C = some g2) (fuel : Nat) :
    solveFuel (fuel + 1) g prefs
      = (solveFuel fuel g2 (removePrefs prefs C)).map (fun cs => C :: cs) := by
  rw [solveFuel, if_neg hempty, hC]
  dsimp only
  rw [hg2]

theorem solveFuel_irrel_aux :
    ∀ (n : Nat) (g : TTCGraph α) (prefs : List (α × List α)), Invariant g prefs →
      g.nodes.length = n → ∀ fuel, n ≤ fuel →
      solveFuel fuel g prefs = solveFuel n g prefs := by
  intro n
  induction n using Nat.strong_induction_on with
  | _ n ih =>
    intro g prefs hinv hlen fuel hfuel
    by_cases hempty : g.nodes.isEmpty
    · have hnil : g.nodes = [] := List.isEmpty_iff.mp hempty
      rw [solveFuel_nil hnil, solveFuel_nil hnil]
    · have hne : g.nodes ≠ [] := fun hcon => hempty (by rw [hcon]; rfl)
      have hpos : 0 < g.nodes.length := List.length_pos.mpr hne
      obtain ⟨C, hC, hcyc, hcnd, hcsub⟩ := findCycle_spec hinv hne
      obtain ⟨g2, hg2, hinv2, hmem2, hlen2⟩ := round_spec hinv hcnd hcsub
      have hCpos : 0 < C.length := List.length_pos.mpr hcyc.1
      rcases n with _ | m
      · omega
      rcases fuel with _ | f
      · omega
      rw [solveFuel_succ_eq hempty hC hg2 f, solveFuel_succ_eq hempty hC hg2 m]
      rw [ih g2.nodes.length (by omega) g2 (removePrefs prefs C) hinv2 rfl f (by omega),
        ih g2.nodes.length (by omega) g2 (removePrefs prefs C) hinv2 rfl m (by omega)]

end TTC

namespace TTC

variable {α : Type} [DecidableEq α]

/-! ## Exchange and congruence of the solver loop (towards C6) -/

/-- Destructing one successful iteration of `solve_preferences`: the found
cycle, the reduced graph, and the tail run. -/
theorem solvePreferences_destruct {g : TTCGraph α} {prefs : List (α × List α)}
    (hinv : Invariant g prefs) (hne : g.nodes ≠ []) {cs : List (List α)}
    (hcs : solvePreferences g prefs = some cs) :
    ∃ C g2 cs2, findCycle g = some C ∧
      IsFCycle (preferredItem prefs) C ∧ C.Nodup ∧ (∀ x ∈ C, x ∈ g.nodes) ∧
      processCycle (removePrefs prefs C) g C = some g2 ∧
      Invariant g2 (removePrefs prefs C) ∧
      (∀ x, x ∈ g2.nodes ↔ x ∈ g.nodes ∧ x ∉ C) ∧
      g2.nodes.length + C.length = g.nodes.length ∧
      solvePreferences g2 (removePrefs prefs C) = some cs2 ∧
      cs = C :: cs2 := by
  obtain ⟨C, hC, hcyc, hcnd, hcsub⟩ := findCycle_spec hinv hne
  obtain ⟨g2, hg2, hinv2, hmem2, hlen2⟩ := round_spec hinv hcnd hcsub
  have hCpos : 0 < C.length := List.length_pos.mpr hcyc.1
  have hpos : 0 < g.nodes.length := List.length_pos.mpr hne
  have hempty : ¬ g.nodes.isEmpty = true := by
    intro hcon
    exact hne (List.isEmpty_iff.mp hcon)
  rw [solvePreferences] at hcs
  obtain ⟨m, hm⟩ : ∃ m, g.nodes.length = m + 1 := ⟨g.nodes.length - 1, by omega⟩
  rw [hm, solveFuel_succ_eq hempty hC hg2 m] at hcs
  rcases hrun : solveFuel m g2 (removePrefs prefs C) with _ | cs2
  · rw [hrun] at hcs
    cases hcs
  · rw [hrun] at hcs
    simp only [Option.map_some', Option.some_inj] at hcs
    refine ⟨C, g2, cs2, hC, hcyc, hcnd, hcsub, hg2, hinv2, hmem2, hlen2, ?_, hcs.symm⟩
    rw [solvePreferences,
      ← solveFuel_irrel_aux g2.nodes.length g2 (removePrefs prefs C) hinv2 rfl m (by omega)]
    exact hrun

/-- The exchange and congruence properties hold at every node count: the
multiset of recorded cycles, each up to rotation, is independent of the node
order and of the preference-entry order, and any current top-choice cycle can
be exchanged to the front of the run. -/
theorem exchange_congr : ∀ n : Nat, ExchangeAt α n ∧ CongrAt α n := by
  intro n
  induction n using Nat.strong_induction_on with
  | _ n ih =>
    have hL : ExchangeAt α n := by
      intro g prefs hinv hlen D hDcyc hDnd hDsub cs hcs g2 hg2 cs2 hcs2
      have hDne : D ≠ [] := hDcyc.1
      have hne : g.nodes ≠ [] := by
        obtain ⟨x, hx⟩ := List.exists_mem_of_ne_nil D hDne
        exact List.ne_nil_of_mem (hDsub x hx)
      obtain ⟨C, gC, csC, hC, hCcyc, hCnd, hCsub, hgC, hinvC, hmemC, hlenC,
        hrunC, hcsEq⟩ := solvePreferences_destruct hinv hne hcs
      subst hcsEq
      obtain ⟨gD, hgD, hinvD, hmemD, hlenD⟩ := round_spec hinv hDnd hDsub
      have hgid : gD = g2 := Option.some_inj.mp (hgD.symm.trans hg2)
      subst hgid
      have hCpos : 0 < C.length := List.length_pos.mpr hCcyc.1
      have hDpos : 0 < D.length := List.length_pos.mpr hDne
      by_cases hshare : ∃ v, v ∈ D ∧ v ∈ C
      · obtain ⟨v, hvD, hvC⟩ := hshare
        have hrot : List.IsRotated C D :=
          isFCycle_shared_rotated hCcyc hDcyc hCnd hDnd hvC hvD
        have hmemCD : ∀ x, x ∈ C ↔ x ∈ D := fun x => hrot.perm.mem_iff
        have hpe : removePrefs prefs D = removePrefs prefs C :=
          removePrefs_congr (fun x => (hmemCD x).symm)
        have hms := (ih gC.nodes.length (by omega)).2 gC (removePrefs prefs C)
          gD (removePrefs prefs D) hinvC hinvD
          (fun v2 => by rw [hpe])
          (fun x => by rw [hmemC x, hmemD x, hmemCD x])
          rfl csC hrunC cs2 hcs2
        rw [cycleMultiset_cons, hms,
          show (C : Cycle α) = (D : Cycle α) from Cycle.coe_eq_coe.mpr hrot]
      · push_neg at hshare
        have hDC : ∀ x ∈ D, x ∉ C := hshare
        have hCD : ∀ x ∈ C, x ∉ D := fun x hxC hxD => hshare x hxD hxC
        have hDcycC : IsFCycle (preferredItem (removePrefs prefs C)) D :=
          isFCycle_removePrefs hDcyc hDC
        have hDsubC : ∀ x ∈ D, x ∈ gC.nodes := fun x hx =>
          (hmemC x).mpr ⟨hDsub x hx, hDC x hx⟩
        obtain ⟨gCD, hgCD, hinvCD, hmemCD2, hlenCD⟩ := round_spec hinvC hDnd hDsubC
        obtain ⟨csCD, hrunCD0, _, _, _, _⟩ := solveFuel_spec gCD.nodes.length gCD
          (removePrefs (removePrefs prefs C) D) hinvCD (le_refl _)
        have hrunCD : solvePreferences gCD (removePrefs (removePrefs prefs C) D)
            = some csCD := hrunCD0
        have hms1 := (ih gC.nodes.length (by omega)).1 gC (removePrefs prefs C)
          hinvC rfl D hDcycC hDnd hDsubC csC hrunC gCD hgCD csCD hrunCD
        have hCcycD : IsFCycle (preferredItem (removePrefs prefs D)) C :=
          isFCycle_removePrefs hCcyc hCD
        have hCsubD : ∀ x ∈ C, x ∈ gD.nodes := fun x hx =>
          (hmemD x).mpr ⟨hCsub x hx, hCD x hx⟩
        obtain ⟨gDC, hgDC, hinvDC, hmemDC, hlenDC⟩ := round_spec hinvD hCnd hCsubD
        obtain ⟨csDC, hrunDC0, _, _, _, _⟩ := solveFuel_spec gDC.nodes.length gDC
          (removePrefs (removePrefs prefs D) C) hinvDC (le_refl _)
        have hrunDC : solvePreferences gDC (removePrefs (removePrefs prefs D) C)
            = some csDC := hrunDC0
        have hms2 := (ih gD.nodes.length (by omega)).1 gD (removePrefs prefs D)
          hinvD rfl C hCcycD hCnd hCsubD cs2 hcs2 gDC hgDC csDC hrunDC
        have hpe2 : removePrefs (removePrefs prefs C) D
            = removePrefs (removePrefs prefs D) C := by
          rw [removePrefs_removePrefs, removePrefs_removePrefs]
          exact removePrefs_congr (fun x => by
            rw [List.mem_append, List.mem_append, Or.comm])
        have hms3 := (ih gCD.nodes.length (by omega)).2 gCD
          (removePrefs (removePrefs prefs C) D) gDC
          (removePrefs (removePrefs prefs D) C) hinvCD hinvDC
          (fun v2 => by rw [hpe2])
          (fun x => by rw [hmemCD2 x, hmemC x, hmemDC x, hmemD x]; tauto)
          rfl csCD hrunCD csDC hrunDC
        rw [cycleMultiset_cons, hms1, hms2, hms3, Multiset.cons_swap]
    have hConf : CongrAt α n := by
      intro g1 prefs1 g2 prefs2 hinv1 hinv2 hlk hmem hlen cs1 hcs1 cs2 hcs2
      by_cases hne1 : g1.nodes = []
      · have hne2 : g2.nodes = [] := by
          rw [List.eq_nil_iff_forall_not_mem]
          intro x hx
          have := (hmem x).mpr hx
          rw [hne1] at this
          cases this
        have h1 : cs1 = [] := by
          have h := hcs1
          rw [solvePreferences, solveFuel_nil hne1 prefs1 g1.nodes.length] at h
          exact (Option.some_inj.mp h).symm
        have h2 : cs2 = [] := by
          have h := hcs2
          rw [solvePreferences, solveFuel_nil hne2 prefs2 g2.nodes.length] at h
          exact (Option.some_inj.mp h).symm
        rw [h1, h2]
      · obtain ⟨C1, gA, csA, hC1, hC1cyc, hC1nd, hC1sub, hgA, hinvA, hmemA,
          hlenA, hrunA, hcsEq⟩ := solvePreferences_destruct hinv1 hne1 hcs1
        subst hcsEq
        have hC1cyc2 : IsFCycle (preferredItem prefs2) C1 :=
          isFCycle_congr_mem (fun x _ => preferredItem_congr hlk x) hC1cyc
        have hC1sub2 : ∀ x ∈ C1, x ∈ g2.nodes := fun x hx => (hmem x).mp (hC1sub x hx)
        have hperm12 : List.Perm g1.nodes g2.nodes :=
          (List.perm_ext_iff_of_nodup hinv1.nodesNodup hinv2.nodesNodup).mpr hmem
        have hlen2 : g2.nodes.length = n := by
          rw [← hperm12.length_eq]
          exact hlen
        obtain ⟨gB, hgB, hinvB, hmemB, hlenB⟩ := round_spec hinv2 hC1nd hC1sub2
        obtain ⟨csB, hrunB0, _, _, _, _⟩ := solveFuel_spec gB.nodes.length gB
          (removePrefs prefs2 C1) hinvB (le_refl _)
        have hrunB : solvePreferences gB (removePrefs prefs2 C1) = some csB := hrunB0
        have hms2 := hL g2 prefs2 hinv2 hlen2 C1 hC1cyc2 hC1nd hC1sub2
          cs2 hcs2 gB hgB csB hrunB
        have hC1pos : 0 < C1.length := List.length_pos.mpr hC1cyc.1
        have hms1 := (ih gA.nodes.length (by omega)).2 gA (removePrefs prefs1 C1)
          gB (removePrefs prefs2 C1) hinvA hinvB
          (fun v => lookupList_removePrefs_congr hlk C1 v)
          (fun x => by rw [hmemA x, hmemB x, hmem x])
          rfl csA hrunA csB hrunB
        rw [cycleMultiset_cons, hms1, hms2]
    exact ⟨hL, hConf⟩

end TTC

namespace TTC

variable {α : Type} [DecidableEq α]

/-- A successful `solve` run certifies its own preconditions: the mapping was
valid and non-empty, and the loop ran on the freshly built graph. -/
theorem solveTop_destruct {input : List (α × List α)} {cs : List (List α)}
    (hcs : solveTop input = .ok cs) :
    (∀ p ∈ input, ∀ a ∈ p.2, a ∈ input.map Prod.fst) ∧ input ≠ [] ∧
    solvePreferences (setupGraph (input.map Prod.fst) input) input = some cs := by
  by_cases hvalid : ∀ p ∈ input, ∀ a ∈ p.2, a ∈ input.map Prod.fst
  · have hne : input ≠ [] := by
      intro hnil
      subst hnil
      rw [show solveTop ([] : List (α × List α))
          = Except.error SolveError.emptyGraph from rfl] at hcs
      cases hcs
    refine ⟨hvalid, hne, ?_⟩
    rw [solveTop, preferencesNew_ok hvalid] at hcs
    dsimp only at hcs
    rw [if_neg (fun hcon => hne (List.isEmpty_iff.mp hcon))] at hcs
    rcases hrun : solvePreferences (setupGraph (input.map Prod.fst) input) input
      with _ | cs0
    · rw [hrun] at hcs
      cases hcs
    · rw [hrun] at hcs
      injection hcs with h
      rw [← h]
  · obtain ⟨v, hv⟩ := preferencesNew_error hvalid
    rw [solveTop, hv] at hcs
    cases hcs

/-- **C6 counterexample.** The claim's entry-reorder invariance fails as
stated: the two inputs below hold the same key-to-list contents (they are
permutations of each other), both runs succeed, yet the outputs differ —
reordering the entries changes both the order in which the cycles are
reported and the rotation of the cycle `[1, 2]` vs `[2, 1]`.  (The outputs do
agree as multisets of rotation classes, see `ttc_c6_determinism`.) -/
theorem ttc_c6_counterexample :
    List.Perm [(1, [2, 1]), (2, [1, 2]), (3, ([3] : List Nat))]
      [(3, [3]), (1, [2, 1]), (2, [1, 2])] ∧
    solveTop [(1, [2, 1]), (2, [1, 2]), (3, [3])] = .ok [[1, 2], [3]] ∧
    solveTop [(3, [3]), (1, [2, 1]), (2, [1, 2])] = .ok [[3], [2, 1]] ∧
    ([[1, 2], [3]] : List (List Nat)) ≠ [[3], [2, 1]] :=
  ⟨by decide, rfl, rfl, by decide⟩

/-- **C6 (amended).** `solve` is deterministic as a function of the input
(first conjunct, definitional in a pure embedding).  Applied to any
reordering of the entries of a valid mapping (distinct keys, same
key-to-list contents) it produces the same *multiset of cycles up to
rotation*, though not the same literal cycle list (second conjunct; see
`ttc_c6_counterexample` for the literal inequality).  Reordering within a
single preference list may change the output even up to rotation and
reordering of cycles (third conjunct: moving `1` to the front of
participant 1's list changes the cycle structure). -/
theorem ttc_c6_determinism :
    (∀ input : List (α × List α), solveTop input = solveTop input) ∧
    (∀ (input input2 : List (α × List α)),
      (input.map Prod.fst).Nodup → List.Perm input input2 →
      ∀ cs cs2, solveTop input = .ok cs → solveTop input2 = .ok cs2 →
        cycleMultiset cs = cycleMultiset cs2) ∧
    (solveTop [(1, [2, 1]), (2, [1, 2]), (3, ([3] : List Nat))]
        = .ok [[1, 2], [3]] ∧
     solveTop [(1, [1, 2]), (2, [1, 2]), (3, [3])] = .ok [[1], [3], [2]] ∧
     cycleMultiset [[1, 2], [3]] ≠ cycleMultiset ([[1], [3], [2]] : List (List Nat))) := by
  refine ⟨fun _ => rfl, ?_, rfl, rfl, by decide⟩
  intro input input2 hnd hperm cs cs2 hcs hcs2
  obtain ⟨hvalid, hne, hrun⟩ := solveTop_destruct hcs
  obtain ⟨hvalid2, hne2, hrun2⟩ := solveTop_destruct hcs2
  have hnd2 : (input2.map Prod.fst).Nodup := ((hperm.map Prod.fst).nodup_iff).mp hnd
  exact (exchange_congr (setupGraph (input.map Prod.fst) input).nodes.length).2
    (setupGraph (input.map Prod.fst) input) input
    (setupGraph (input2.map Prod.fst) input2) input2
    (initial_invariant hnd hvalid) (initial_invariant hnd2 hvalid2)
    (lookupList_perm hnd hperm)
    (fun x => (hperm.map Prod.fst).mem_iff)
    rfl cs hrun cs2 hrun2

/-- Witness for C6: the amended invariance instantiated on the concrete
entry reordering of the counterexample, where the outputs `[[1, 2], [3]]` and
`[[3], [2, 1]]` differ as lists but agree as multisets of rotation classes. -/
theorem ttc_c6_determinism_witness :
    cycleMultiset [[1, 2], [3]] = cycleMultiset ([[3], [2, 1]] : List (List Nat)) :=
  ttc_c6_determinism.2.1 [(1, [2, 1]), (2, [1, 2]), (3, [3])]
    [(3, [3]), (1, [2, 1]), (2, [1, 2])] (by decide) (by decide)
    [[1, 2], [3]] [[3], [2, 1]] (by rfl) (by rfl)

end TTC
